import Mathlib

/-!
# Verification of the `adlist.c` doubly linked list (Redis 5.0 annotated source)

A shallow embedding of `src/adlist.c`.  Pointers are natural numbers, the heap
maps a pointer to the node stored there (`none` = unallocated / freed), and a
state carries the heap, an allocation counter (fresh addresses), and the trace
of values passed to the release (`free`) callback.  Each C function becomes a
Lean function on this state; `zmalloc` results are modelled by explicit boolean
success inputs (the allocator may fail, per the spec's resource model), a
successful allocation returning the fresh address `ctr`.

The C code mutates the `list` header in place; here every operation returns the
updated header(s).  `len` is a C `unsigned long`; it is modelled as `Nat`
(the claims only exercise states where no wrap-around can occur, since `len`
always equals the number of nodes of the list).  Dereferencing an unallocated
pointer is undefined behaviour in C; the embedding resolves such reads with a
default node and such writes by skipping, and every theorem's hypotheses
(representation of the list) make these cases unreachable.
-/

namespace Adlist

/-- Node addresses. `NULL` is represented by `none : Option Ptr`. -/
abbrev Ptr := Nat

/-- Opaque caller values (`void *value`); identity is all the list inspects. -/
abbrev Val := Nat

/-- `listNode` from adlist.h: a value and the two neighbour links. -/
structure listNode where
  value : Val
  prev : Option Ptr
  next : Option Ptr
deriving Repr, DecidableEq, Inhabited

/-- The heap: what node, if any, lives at each address. -/
abbrev Heap := Ptr → Option listNode

/-- `list` from adlist.h: head/tail/len plus the three callbacks.
The release callback (`free`) is observable only through being invoked, so it
is modelled by whether it is installed plus the global trace in `State`. -/
structure list where
  head : Option Ptr
  tail : Option Ptr
  len : Nat
  dup : Option (Val → Option Val)
  free : Bool
  matchfn : Option (Val → Val → Bool)

/-- Global program state: heap, fresh-address counter, release-callback trace. -/
structure State where
  heap : Heap
  ctr : Ptr
  freed : List Val

/-- Read a node, resolving a (never reachable) dangling read with a default. -/
def getNode (h : Heap) (p : Ptr) : listNode :=
  (h p).getD default

/-- Store a whole node at an address (allocation or full overwrite). -/
def hupd (h : Heap) (p : Ptr) (nd : listNode) : Heap :=
  fun q => if q = p then some nd else h q

/-- `p->prev = v`, skipping the (unreachable) write through a dangling pointer. -/
def writePrev (h : Heap) (p : Ptr) (v : Option Ptr) : Heap :=
  fun q => if q = p then (h q).map (fun nd => { nd with prev := v }) else h q

/-- `p->next = v`, skipping the (unreachable) write through a dangling pointer. -/
def writeNext (h : Heap) (p : Ptr) (v : Option Ptr) : Heap :=
  fun q => if q = p then (h q).map (fun nd => { nd with next := v }) else h q

/-- `zfree(p)`. -/
def hfree (h : Heap) (p : Ptr) : Heap :=
  fun q => if q = p then none else h q

/-- `AL_START_HEAD` from adlist.h (header not in the sources; the standard
Redis value 0, forward direction). -/
def AL_START_HEAD : Nat := 0

/-- `AL_START_TAIL` from adlist.h (standard Redis value 1, backward). -/
def AL_START_TAIL : Nat := 1

/-- `listIter` from adlist.h: the cursor (`next`) and the direction. -/
structure listIter where
  next : Option Ptr
  direction : Nat
deriving Repr, DecidableEq

/-- `listCreate`: allocate an empty header, all callbacks unset; `ok` is the
header allocation's outcome (`none` = `zmalloc` returned `NULL`). -/
def listCreate (ok : Bool) : Option list :=
  if !ok then none
  else some { head := none, tail := none, len := 0,
              dup := none, free := false, matchfn := none }

/-- `listAddNodeHead`: `ok` is the node allocation's outcome; on success the
new node lives at the fresh address `σ.ctr`. -/
def listAddNodeHead (σ : State) (l : list) (value : Val) (ok : Bool) :
    Option (State × list) :=
  if !ok then none
  else
    let node := σ.ctr
    if l.len = 0 then
      let h := hupd σ.heap node ⟨value, none, none⟩
      some ({ σ with heap := h, ctr := σ.ctr + 1 },
            { l with head := some node, tail := some node, len := l.len + 1 })
    else
      let h := hupd σ.heap node ⟨value, none, l.head⟩
      let h := match l.head with
        | some hp => writePrev h hp (some node)
        | none => h
      some ({ σ with heap := h, ctr := σ.ctr + 1 },
            { l with head := some node, len := l.len + 1 })

/-- `listAddNodeTail`. -/
def listAddNodeTail (σ : State) (l : list) (value : Val) (ok : Bool) :
    Option (State × list) :=
  if !ok then none
  else
    let node := σ.ctr
    if l.len = 0 then
      let h := hupd σ.heap node ⟨value, none, none⟩
      some ({ σ with heap := h, ctr := σ.ctr + 1 },
            { l with head := some node, tail := some node, len := l.len + 1 })
    else
      let h := hupd σ.heap node ⟨value, l.tail, none⟩
      let h := match l.tail with
        | some tp => writeNext h tp (some node)
        | none => h
      some ({ σ with heap := h, ctr := σ.ctr + 1 },
            { l with tail := some node, len := l.len + 1 })

/-- `listInsertNode`: insert a fresh node next to `old_node`, after it when
`after` is true, before it otherwise. -/
def listInsertNode (σ : State) (l : list) (old_node : Ptr) (value : Val)
    (after : Bool) (ok : Bool) : Option (State × list) :=
  if !ok then none
  else
    let node := σ.ctr
    let ond := getNode σ.heap old_node
    let sel :=
      if after then
        (some old_node, ond.next,
         if l.tail = some old_node then { l with tail := some node } else l)
      else
        (ond.prev, some old_node,
         if l.head = some old_node then { l with head := some node } else l)
    let h := hupd σ.heap node ⟨value, sel.1, sel.2.1⟩
    let h := match sel.1 with
      | some p => writeNext h p (some node)
      | none => h
    let h := match sel.2.1 with
      | some p => writePrev h p (some node)
      | none => h
    some ({ σ with heap := h, ctr := σ.ctr + 1 },
          { sel.2.2 with len := sel.2.2.len + 1 })

/-- `listDelNode`: unlink `node`, invoke the release callback (recorded in the
`freed` trace) when installed, free the node, decrement `len`. -/
def listDelNode (σ : State) (l : list) (node : Ptr) : State × list :=
  let nd := getNode σ.heap node
  let s1 : Heap × list :=
    match nd.prev with
    | some p => (writeNext σ.heap p nd.next, l)
    | none => (σ.heap, { l with head := nd.next })
  let s2 : Heap × list :=
    match nd.next with
    | some p => (writePrev s1.1 p nd.prev, s1.2)
    | none => (s1.1, { s1.2 with tail := nd.prev })
  let freed := if l.free then σ.freed ++ [nd.value] else σ.freed
  ({ σ with heap := hfree s2.1 node, freed := freed },
   { s2.2 with len := s2.2.len - 1 })

/-- `listGetIterator`: allocate an iterator seated per `direction`; `ok` is the
iterator allocation's outcome. -/
def listGetIterator (l : list) (direction : Nat) (ok : Bool) : Option listIter :=
  if !ok then none
  else some { next := if direction = AL_START_HEAD then l.head else l.tail,
              direction := direction }

/-- `listReleaseIterator`: frees the iterator, no effect on any list. -/
def listReleaseIterator (_iter : listIter) : Unit := ()

/-- `listRewind`: re-seat an iterator at the head, forward. -/
def listRewind (l : list) (_li : listIter) : listIter :=
  { next := l.head, direction := AL_START_HEAD }

/-- `listRewindTail`: re-seat an iterator at the tail, backward. -/
def listRewindTail (l : list) (_li : listIter) : listIter :=
  { next := l.tail, direction := AL_START_TAIL }

/-- `listNext`: return the node at the cursor (or `none` when exhausted) and
advance the cursor along `next` (forward) or `prev` (backward), reading the
link at the moment of the call. -/
def listNext (h : Heap) (iter : listIter) : listIter × Option Ptr :=
  match iter.next with
  | none => (iter, none)
  | some current =>
    let nd := getNode h current
    ({ iter with
        next := if iter.direction = AL_START_HEAD then nd.next else nd.prev },
     some current)

/-- `listEmpty`'s loop: walk `len` nodes from the head, releasing values (when
the callback is installed) and freeing nodes.  Structural on the length read
from the header, exactly as the C loop counts `len` down. -/
def emptyLoop (freeSet : Bool) : Heap → List Val → Option Ptr → Nat →
    Heap × List Val
  | h, freed, _, 0 => (h, freed)
  | h, freed, cur, k + 1 =>
    match cur with
    | none => (h, freed)
    | some p =>
      let nd := getNode h p
      let freed := if freeSet then freed ++ [nd.value] else freed
      emptyLoop freeSet (hfree h p) freed nd.next k

/-- `listEmpty`: free every node, then reset head/tail/len. -/
def listEmpty (σ : State) (l : list) : State × list :=
  let r := emptyLoop l.free σ.heap σ.freed l.head l.len
  ({ σ with heap := r.1, freed := r.2 },
   { l with head := none, tail := none, len := 0 })

/-- `listRelease`: empty the list and free its header (the header lives outside
the modelled heap, so only the emptying is observable). -/
def listRelease (σ : State) (l : list) : State :=
  (listEmpty σ l).1

/-- `listRotate`: detach the tail and relink it as the head; no-op when
`len ≤ 1`. -/
def listRotate (σ : State) (l : list) : State × list :=
  if l.len ≤ 1 then (σ, l)
  else
    match l.tail with
    | none => (σ, l)
    | some tailp =>
      let tnd := getNode σ.heap tailp
      let h := match tnd.prev with
        | some p => writeNext σ.heap p none
        | none => σ.heap
      let h := match l.head with
        | some p => writePrev h p (some tailp)
        | none => h
      let h := hupd h tailp { getNode h tailp with prev := none, next := l.head }
      ({ σ with heap := h },
       { l with head := some tailp, tail := tnd.prev })

/-- `listJoin l o`: splice all of `o`'s nodes after `l`'s tail, add the
lengths, then reset `o` to the empty state. -/
def listJoin (σ : State) (l o : list) : State × list × list :=
  let h := match o.head with
    | some p => writePrev σ.heap p l.tail
    | none => σ.heap
  let s1 : Heap × list :=
    match l.tail with
    | some p => (writeNext h p o.head, l)
    | none => (h, { l with head := o.head })
  let l2 := match o.tail with
    | some p => { s1.2 with tail := some p }
    | none => s1.2
  ({ σ with heap := s1.1 },
   { l2 with len := l2.len + o.len },
   { o with head := none, tail := none, len := 0 })

/-- `listIndex`'s forward walk: `while(index-- && n) n = n->next`. -/
def walkNext (h : Heap) : Option Ptr → Nat → Option Ptr
  | n, 0 => n
  | none, _ + 1 => none
  | some p, k + 1 => walkNext h (getNode h p).next k

/-- `listIndex`'s backward walk: `while(index-- && n) n = n->prev`. -/
def walkPrev (h : Heap) : Option Ptr → Nat → Option Ptr
  | n, 0 => n
  | none, _ + 1 => none
  | some p, k + 1 => walkPrev h (getNode h p).prev k

/-- `listIndex`: zero-based from the head for `index ≥ 0`, `-1`-based from the
tail for `index < 0`. -/
def listIndex (σ : State) (l : list) (index : Int) : Option Ptr :=
  if index < 0 then walkPrev σ.heap l.tail ((-index) - 1).toNat
  else walkNext σ.heap l.head index.toNat

/-- `listSearchKey`'s loop, driven by `listNext` exactly as in C; `fuel` bounds
the number of iterations (the C loop is bounded by the list being finite, which
the representation predicate guarantees; every theorem supplies enough fuel).
`none` = fuel ran out, `some r` = the C function returned `r`. -/
def searchLoop (σ : State) (l : list) (key : Val) :
    listIter → Nat → Option (Option Ptr)
  | _, 0 => none
  | iter, fuel + 1 =>
    let st := listNext σ.heap iter
    match st.2 with
    | none => some none
    | some node =>
      let v := (getNode σ.heap node).value
      match l.matchfn with
      | some m => if m v key then some (some node) else searchLoop σ l key st.1 fuel
      | none => if key = v then some (some node) else searchLoop σ l key st.1 fuel

/-- `listSearchKey`: scan from the head for the first node matching `key`. -/
def listSearchKey (σ : State) (l : list) (key : Val) (fuel : Nat) :
    Option (Option Ptr) :=
  searchLoop σ l key { next := l.head, direction := AL_START_HEAD } fuel

/-- `listDup`'s loop.  `oks` feeds the per-node allocation outcomes (head
element first).  Result: `none` = fuel ran out; `some (σ, none)` = the C
function released the partial copy and returned `NULL`; `some (σ, some copy)`
= success. -/
def dupLoop (σ : State) (copy : list) (iter : listIter) (oks : List Bool) :
    Nat → Option (State × Option list)
  | 0 => none
  | fuel + 1 =>
    let st := listNext σ.heap iter
    match st.2 with
    | none => some (σ, some copy)
    | some node =>
      let value0 := (getNode σ.heap node).value
      match copy.dup with
      | some d =>
        match d value0 with
        | none => some (listRelease σ copy, none)
        | some value =>
          match listAddNodeTail σ copy value (oks.headD true) with
          | none => some (listRelease σ copy, none)
          | some r => dupLoop r.1 r.2 st.1 oks.tail fuel
      | none =>
        match listAddNodeTail σ copy value0 (oks.headD true) with
        | none => some (listRelease σ copy, none)
        | some r => dupLoop r.1 r.2 st.1 oks.tail fuel

/-- `listDup`: copy the callbacks, then append a (deep or shallow) copy of each
of `orig`'s values, tearing the partial copy down on any failure.  `ok0` is the
`listCreate` allocation outcome, `oks` the node allocation outcomes. -/
def listDup (σ : State) (orig : list) (ok0 : Bool) (oks : List Bool)
    (fuel : Nat) : Option (State × Option list) :=
  match listCreate ok0 with
  | none => some (σ, none)
  | some c0 =>
    let copy := { c0 with dup := orig.dup, free := orig.free,
                          matchfn := orig.matchfn }
    dupLoop σ copy { next := orig.head, direction := AL_START_HEAD } oks fuel

/-!
## Representation predicate

`seg h pr cur ns out` says: starting at `cur`, the addresses `ns` hold a
doubly linked segment whose first node's `prev` is `pr` and whose last node's
`next` is `out` (for an empty segment, `cur = out`).  A whole list is a
segment anchored at `none` on both sides.
-/

/-- Doubly linked segment predicate over the heap. -/
def seg (h : Heap) : Option Ptr → Option Ptr → List Ptr → Option Ptr → Prop
  | _, cur, [], out => cur = out
  | pr, cur, p :: rest, out =>
    cur = some p ∧ ∃ nd, h p = some nd ∧ nd.prev = pr ∧ seg h (some p) nd.next rest out

/-- Mirror segment predicate following `prev`-links: first node's `next` is
`nx`, last node's `prev` is `out`. -/
def revseg (h : Heap) : Option Ptr → Option Ptr → List Ptr → Option Ptr → Prop
  | _, cur, [], out => cur = out
  | nx, cur, p :: rest, out =>
    cur = some p ∧ ∃ nd, h p = some nd ∧ nd.next = nx ∧ revseg h (some p) nd.prev rest out

/-- The `prev` anchor seen after traversing `ns` coming in with anchor `pr`:
the last address of `ns`, or `pr` when `ns` is empty. -/
def endp (pr : Option Ptr) : List Ptr → Option Ptr
  | [] => pr
  | p :: rest => endp (some p) rest

/-- `l` is represented in `σ` by the node-address sequence `ns`. -/
structure lstRep (σ : State) (l : list) (ns : List Ptr) : Prop where
  chain : seg σ.heap none l.head ns none
  tail_ok : l.tail = endp none ns
  len_ok : l.len = ns.length
  nodup : ns.Nodup
  bounded : ∀ p ∈ ns, p < σ.ctr

/-- The values stored at a sequence of addresses. -/
def valsOf (h : Heap) (ns : List Ptr) : List Val :=
  ns.map (fun p => (getNode h p).value)

/-- Forward traversal of `next`-links, with fuel. -/
def fwdTrav (h : Heap) : Option Ptr → Nat → List Ptr
  | _, 0 => []
  | none, _ + 1 => []
  | some p, k + 1 => p :: fwdTrav h (getNode h p).next k

/-- Backward traversal of `prev`-links, with fuel. -/
def bwdTrav (h : Heap) : Option Ptr → Nat → List Ptr
  | _, 0 => []
  | none, _ + 1 => []
  | some p, k + 1 => p :: bwdTrav h (getNode h p).prev k

/-- The addresses produced by `k` successive `listNext` calls. -/
def runIter (h : Heap) : listIter → Nat → List Ptr
  | _, 0 => []
  | it, k + 1 =>
    match (listNext h it).2, (listNext h it).1 with
    | none, _ => []
    | some p, it' => p :: runIter h it' k

/-- One step of `listDup`'s value processing: apply the duplicate callback
when installed, otherwise share the value. -/
def procVal (dup : Option (Val → Option Val)) (v : Val) : Option Val :=
  match dup with
  | some d => d v
  | none => some v

/-- `listDup`'s value processing over a value sequence; `none` when some
duplicate-callback application fails. -/
def procVals (dup : Option (Val → Option Val)) : List Val → Option (List Val)
  | [] => some []
  | v :: rest =>
    match procVal dup v with
    | none => none
    | some w =>
      match procVals dup rest with
      | none => none
      | some ws => some (w :: ws)

/-- Whether `listDup`'s loop runs to completion: every duplicate-callback
application succeeds and every node allocation succeeds, consuming the
allocation outcomes in order. -/
def dupSucceeds (dup : Option (Val → Option Val)) (oks : List Bool) :
    List Val → Bool
  | [] => true
  | v :: rest =>
    match procVal dup v with
    | none => false
    | some _ => oks.headD true && dupSucceeds dup oks.tail rest

/-- The values `listDup`'s loop has already placed into the partial copy at
the moment it first fails: processed values accumulate, in source order,
until the first failing duplicate-callback application or the first failing
node allocation; a value whose own node allocation fails was never placed
(the C code leaks it rather than adding or freeing it). -/
def placedVals (dup : Option (Val → Option Val)) (oks : List Bool) :
    List Val → List Val
  | [] => []
  | v :: rest =>
    match procVal dup v with
    | none => []
    | some w =>
      if oks.headD true then w :: placedVals dup oks.tail rest
      else []

/-- One successful list operation applied to the tracked list, as the C API
allows it to be used.  For `listInsertNode` and `listDelNode` the
anchor/victim must be a node of the list (the documented precondition, phrased
through the observable forward traversal); for `listJoin` the other list is
any represented list whose nodes are disjoint from the tracked one (a node
never belongs to two lists at once). -/
inductive Step : State × list → State × list → Prop where
  | addHead {σ : State} {l : list} {σ' : State} {l' : list} (v : Val) :
      listAddNodeHead σ l v true = some (σ', l') → Step (σ, l) (σ', l')
  | addTail {σ : State} {l : list} {σ' : State} {l' : list} (v : Val) :
      listAddNodeTail σ l v true = some (σ', l') → Step (σ, l) (σ', l')
  | insert {σ : State} {l : list} {σ' : State} {l' : list}
      (anchor : Ptr) (v : Val) (after : Bool) :
      anchor ∈ fwdTrav σ.heap l.head l.len →
      listInsertNode σ l anchor v after true = some (σ', l') → Step (σ, l) (σ', l')
  | delete {σ : State} {l : list} {σ' : State} {l' : list} (node : Ptr) :
      node ∈ fwdTrav σ.heap l.head l.len →
      listDelNode σ l node = (σ', l') → Step (σ, l) (σ', l')
  | rotate {σ : State} {l : list} {σ' : State} {l' : list} :
      listRotate σ l = (σ', l') → Step (σ, l) (σ', l')
  | emptyOp {σ : State} {l : list} {σ' : State} {l' : list} :
      listEmpty σ l = (σ', l') → Step (σ, l) (σ', l')
  | joinDest {σ : State} {l : list} {σ' : State} {l' : list} {o o' : list}
      (ns2 : List Ptr) :
      lstRep σ o ns2 →
      (∀ p ∈ fwdTrav σ.heap l.head l.len, p ∉ ns2) →
      listJoin σ l o = (σ', l', o') → Step (σ, l) (σ', l')
  | joinSrc {σ : State} {l : list} {σ' : State} {l' : list} {d d' : list}
      (nsd : List Ptr) :
      lstRep σ d nsd →
      (∀ p ∈ nsd, p ∉ fwdTrav σ.heap l.head l.len) →
      listJoin σ d l = (σ', d', l') → Step (σ, l) (σ', l')

/-- States of the tracked list reachable from a successful `listCreate` by
any sequence of operations; the ambient state at creation is arbitrary. -/
inductive Reachable : State × list → Prop where
  | create (σ : State) {l : list} : listCreate true = some l → Reachable (σ, l)
  | step {s s' : State × list} : Reachable s → Step s s' → Reachable s'

/-- A concrete heap holding one two-node chain at addresses 0 and 1. -/
def heap2 : Heap := fun p =>
  if p = 0 then some ⟨10, none, some 1⟩
  else if p = 1 then some ⟨11, some 0, none⟩ else none

/-- A concrete state over `heap2`. -/
def st2 : State := ⟨heap2, 2, []⟩

/-- The header of the two-node list living in `heap2`. -/
def lst2 : list := ⟨some 0, some 1, 2, none, false, none⟩

/-- A concrete heap holding two disjoint singleton chains. -/
def heapJ : Heap := fun p =>
  if p = 0 then some ⟨10, none, none⟩
  else if p = 1 then some ⟨11, none, none⟩ else none

/-- A concrete state over `heapJ`. -/
def stJ : State := ⟨heapJ, 2, []⟩

/-- The header of the singleton list at address 0 of `heapJ`. -/
def lstA : list := ⟨some 0, some 0, 1, none, false, none⟩

/-- The header of the singleton list at address 1 of `heapJ`. -/
def lstB : list := ⟨some 1, some 1, 1, none, false, none⟩

/-- The empty ambient state. -/
def st0 : State := ⟨fun _ => none, 0, []⟩

/-- A freshly created empty list header. -/
def lst0 : list := ⟨none, none, 0, none, false, none⟩

theorem seg_nil {h : Heap} {pr cur out : Option Ptr} :
    seg h pr cur [] out ↔ cur = out := Iff.rfl

theorem seg_cons {h : Heap} {pr cur out : Option Ptr} {p : Ptr} {rest : List Ptr} :
    seg h pr cur (p :: rest) out ↔
      cur = some p ∧ ∃ nd, h p = some nd ∧ nd.prev = pr ∧
        seg h (some p) nd.next rest out := Iff.rfl

theorem revseg_nil {h : Heap} {nx cur out : Option Ptr} :
    revseg h nx cur [] out ↔ cur = out := Iff.rfl

theorem revseg_cons {h : Heap} {nx cur out : Option Ptr} {p : Ptr} {rest : List Ptr} :
    revseg h nx cur (p :: rest) out ↔
      cur = some p ∧ ∃ nd, h p = some nd ∧ nd.next = nx ∧
        revseg h (some p) nd.prev rest out := Iff.rfl

@[simp] theorem endp_nil {pr : Option Ptr} : endp pr [] = pr := rfl

theorem endp_cons {pr : Option Ptr} {p : Ptr} {rest : List Ptr} :
    endp pr (p :: rest) = endp (some p) rest := rfl

theorem endp_concat {ns : List Ptr} :
    ∀ {pr : Option Ptr} {p : Ptr}, endp pr (ns ++ [p]) = some p := by
  induction ns with
  | nil => intro pr p; rfl
  | cons q t ih => intro pr p; exact ih

/-- A segment only depends on the heap at its own addresses. -/
theorem seg_frame {h h' : Heap} {ns : List Ptr} :
    ∀ {pr cur out : Option Ptr}, (∀ p ∈ ns, h' p = h p) →
      seg h pr cur ns out → seg h' pr cur ns out := by
  induction ns with
  | nil => intro pr cur out _ hs; exact hs
  | cons p rest ih =>
    intro pr cur out hag hs
    obtain ⟨hcur, nd, hnd, hprev, hrest⟩ := hs
    refine ⟨hcur, nd, ?_, hprev, ?_⟩
    · rw [hag p (by simp)]; exact hnd
    · exact ih (fun q hq => hag q (by simp [hq])) hrest

/-- A mirror segment only depends on the heap at its own addresses. -/
theorem revseg_frame {h h' : Heap} {ns : List Ptr} :
    ∀ {nx cur out : Option Ptr}, (∀ p ∈ ns, h' p = h p) →
      revseg h nx cur ns out → revseg h' nx cur ns out := by
  induction ns with
  | nil => intro nx cur out _ hs; exact hs
  | cons p rest ih =>
    intro nx cur out hag hs
    obtain ⟨hcur, nd, hnd, hnext, hrest⟩ := hs
    refine ⟨hcur, nd, ?_, hnext, ?_⟩
    · rw [hag p (by simp)]; exact hnd
    · exact ih (fun q hq => hag q (by simp [hq])) hrest

/-- Segments concatenate at an intermediate cursor. -/
theorem seg_append {h : Heap} {l1 l2 : List Ptr} :
    ∀ {pr cur out : Option Ptr},
      seg h pr cur (l1 ++ l2) out ↔
        ∃ mid, seg h pr cur l1 mid ∧ seg h (endp pr l1) mid l2 out := by
  induction l1 with
  | nil =>
    intro pr cur out
    constructor
    · intro hs; exact ⟨cur, rfl, hs⟩
    · rintro ⟨mid, hm, hs⟩; rw [seg_nil] at hm; rw [hm]; exact hs
  | cons p rest ih =>
    intro pr cur out
    constructor
    · rintro ⟨hcur, nd, hnd, hprev, hs⟩
      obtain ⟨mid, h1, h2⟩ := ih.mp hs
      exact ⟨mid, ⟨hcur, nd, hnd, hprev, h1⟩, by rwa [endp_cons]⟩
    · rintro ⟨mid, ⟨hcur, nd, hnd, hprev, h1⟩, h2⟩
      refine ⟨hcur, nd, hnd, hprev, ih.mpr ⟨mid, h1, ?_⟩⟩
      rwa [endp_cons] at h2

/-- Mirror segments concatenate at an intermediate cursor. -/
theorem revseg_append {h : Heap} {l1 l2 : List Ptr} :
    ∀ {nx cur out : Option Ptr},
      revseg h nx cur (l1 ++ l2) out ↔
        ∃ mid, revseg h nx cur l1 mid ∧ revseg h (endp nx l1) mid l2 out := by
  induction l1 with
  | nil =>
    intro nx cur out
    constructor
    · intro hs; exact ⟨cur, rfl, hs⟩
    · rintro ⟨mid, hm, hs⟩; rw [revseg_nil] at hm; rw [hm]; exact hs
  | cons p rest ih =>
    intro nx cur out
    constructor
    · rintro ⟨hcur, nd, hnd, hnext, hs⟩
      obtain ⟨mid, h1, h2⟩ := ih.mp hs
      exact ⟨mid, ⟨hcur, nd, hnd, hnext, h1⟩, by rwa [endp_cons]⟩
    · rintro ⟨mid, ⟨hcur, nd, hnd, hnext, h1⟩, h2⟩
      refine ⟨hcur, nd, hnd, hnext, ih.mpr ⟨mid, h1, ?_⟩⟩
      rwa [endp_cons] at h2

/-- Reversing a segment turns `next`-chaining into `prev`-chaining. -/
theorem seg_revseg {h : Heap} {ns : List Ptr} :
    ∀ {pr cur out : Option Ptr}, seg h pr cur ns out →
      revseg h out (endp pr ns) ns.reverse pr := by
  induction ns with
  | nil => intro pr cur out _; exact revseg_nil.mpr rfl
  | cons p rest ih =>
    intro pr cur out hs
    obtain ⟨hcur, nd, hnd, hprev, hrest⟩ := hs
    rw [List.reverse_cons, endp_cons]
    refine revseg_append.mpr ⟨some p, ih hrest, ?_⟩
    have hmid : nd.next = endp out rest.reverse := by
      cases rest with
      | nil => exact hrest
      | cons q t =>
        obtain ⟨hq, _⟩ := hrest
        rw [hq, List.reverse_cons, endp_concat]
    exact ⟨rfl, nd, hnd, hmid.symm.symm ▸ rfl, revseg_nil.mpr hprev⟩

/-- Every address of a segment is allocated. -/
theorem seg_alloc {h : Heap} {ns : List Ptr} :
    ∀ {pr cur out : Option Ptr}, seg h pr cur ns out →
      ∀ p ∈ ns, ∃ nd, h p = some nd := by
  induction ns with
  | nil => intro _ _ _ _ p hp; cases hp
  | cons q rest ih =>
    intro pr cur out hs p hp
    obtain ⟨_, nd, hnd, _, hrest⟩ := hs
    rcases List.mem_cons.mp hp with h1 | h1
    · exact ⟨nd, h1 ▸ hnd⟩
    · exact ih hrest p h1

/-- The cursor of a nonempty segment is its first address. -/
theorem seg_head {h : Heap} {ns : List Ptr} {pr cur out : Option Ptr}
    (hs : seg h pr cur ns out) : cur = ns.head?.elim out some := by
  cases ns with
  | nil => exact hs
  | cons p rest => exact hs.1

/-- Rewriting the last node's `next` retargets a segment's out-pointer. -/
theorem seg_retarget {h : Heap} {ns : List Ptr} {p : Ptr}
    {pr cur out out' : Option Ptr} (hp : p ∉ ns)
    (hs : seg h pr cur (ns ++ [p]) out) :
    seg (writeNext h p out') pr cur (ns ++ [p]) out' := by
  obtain ⟨mid, h1, h2⟩ := seg_append.mp hs
  obtain ⟨hmid, nd, hnd, hprev, hlast⟩ := h2
  refine seg_append.mpr ⟨mid, ?_, ?_⟩
  · refine seg_frame (fun q hq => ?_) h1
    have : q ≠ p := fun he => hp (he ▸ hq)
    simp [writeNext, this]
  · exact ⟨hmid, { nd with next := out' }, by simp [writeNext, hnd], hprev,
      seg_nil.mpr rfl⟩

/-- Rewriting the first node's `prev` re-anchors a segment. -/
theorem seg_reanchor {h : Heap} {rest : List Ptr} {p : Ptr}
    {pr pr' cur out : Option Ptr} (hp : p ∉ rest)
    (hs : seg h pr cur (p :: rest) out) :
    seg (writePrev h p pr') pr' cur (p :: rest) out := by
  obtain ⟨hcur, nd, hnd, _, hrest⟩ := hs
  refine ⟨hcur, { nd with prev := pr' }, by simp [writePrev, hnd], rfl, ?_⟩
  refine seg_frame (fun q hq => ?_) hrest
  have : q ≠ p := fun he => hp (he ▸ hq)
  simp [writePrev, this]

/-- In a whole chain, a node's forward link is inverted by its target's
back link. -/
theorem seg_inv_next {h : Heap} {ns : List Ptr} :
    ∀ {pr cur : Option Ptr}, seg h pr cur ns none →
      ∀ p ∈ ns, ∀ nd, h p = some nd → ∀ q, nd.next = some q →
        ∃ qnd, h q = some qnd ∧ qnd.prev = some p := by
  induction ns with
  | nil => intro _ _ _ p hp; cases hp
  | cons a rest ih =>
    intro pr cur hs p hp nd hnd q hq
    obtain ⟨hcur, nd0, hnd0, hprev0, hrest⟩ := hs
    rcases List.mem_cons.mp hp with h1 | h1
    · subst h1
      have hee : nd0 = nd := by rw [hnd] at hnd0; exact (Option.some_injective _ hnd0).symm
      subst hee
      rw [hq] at hrest
      cases rest with
      | nil => exact absurd hrest (by simp [seg])
      | cons b t =>
        obtain ⟨hb, qnd, hqnd, hqprev, _⟩ := hrest
        have hqb : q = b := Option.some_injective _ hb
        subst hqb
        exact ⟨qnd, hqnd, hqprev⟩
    · exact ih hrest p h1 nd hnd q hq

/-- In a chain anchored at `none`, a node's back link is inverted by its
target's forward link. -/
theorem seg_inv_prev {h : Heap} {ns : List Ptr} :
    ∀ {pr cur : Option Ptr} {out : Option Ptr}, seg h pr cur ns out →
      (∀ q, pr = some q → ∃ qnd, h q = some qnd ∧ qnd.next = cur) →
      ∀ p ∈ ns, ∀ nd, h p = some nd → ∀ q, nd.prev = some q →
        ∃ qnd, h q = some qnd ∧ qnd.next = some p := by
  induction ns with
  | nil => intro _ _ _ _ _ p hp; cases hp
  | cons a rest ih =>
    intro pr cur out hs hpr p hp nd hnd q hq
    obtain ⟨hcur, nd0, hnd0, hprev0, hrest⟩ := hs
    rcases List.mem_cons.mp hp with h1 | h1
    · subst h1
      have hee : nd0 = nd := by rw [hnd] at hnd0; exact (Option.some_injective _ hnd0).symm
      subst hee
      obtain ⟨qnd, hqnd, hqnext⟩ := hpr q (hprev0 ▸ hq)
      exact ⟨qnd, hqnd, hcur ▸ hqnext⟩
    · refine ih hrest ?_ p h1 nd hnd q hq
      intro r hr
      exact ⟨nd0, (Option.some_injective _ hr) ▸ hnd0, rfl⟩

/-- `walkNext` along a whole chain lands on the `k`-th address. -/
theorem seg_walkNext {h : Heap} {ns : List Ptr} :
    ∀ {pr cur : Option Ptr}, seg h pr cur ns none →
      ∀ k, walkNext h cur k = ns[k]? := by
  induction ns with
  | nil =>
    intro pr cur hs k
    rw [seg_nil] at hs; subst hs
    cases k <;> simp [walkNext]
  | cons p rest ih =>
    intro pr cur hs k
    obtain ⟨hcur, nd, hnd, _, hrest⟩ := hs
    subst hcur
    cases k with
    | zero => simp [walkNext]
    | succ j =>
      have : getNode h p = nd := by simp [getNode, hnd]
      simp only [walkNext, this]
      rw [ih hrest j]
      simp

/-- `walkPrev` along a whole mirror chain lands on the `k`-th address. -/
theorem revseg_walkPrev {h : Heap} {ns : List Ptr} :
    ∀ {nx cur : Option Ptr}, revseg h nx cur ns none →
      ∀ k, walkPrev h cur k = ns[k]? := by
  induction ns with
  | nil =>
    intro nx cur hs k
    rw [revseg_nil] at hs; subst hs
    cases k <;> simp [walkPrev]
  | cons p rest ih =>
    intro nx cur hs k
    obtain ⟨hcur, nd, hnd, _, hrest⟩ := hs
    subst hcur
    cases k with
    | zero => simp [walkPrev]
    | succ j =>
      have : getNode h p = nd := by simp [getNode, hnd]
      simp only [walkPrev, this]
      rw [ih hrest j]
      simp

/-- Given enough fuel, forward traversal of a whole chain lists its nodes. -/
theorem seg_fwdTrav {h : Heap} {ns : List Ptr} :
    ∀ {pr cur : Option Ptr}, seg h pr cur ns none →
      ∀ k, ns.length ≤ k → fwdTrav h cur k = ns := by
  induction ns with
  | nil =>
    intro pr cur hs k _
    rw [seg_nil] at hs; subst hs
    cases k <;> simp [fwdTrav]
  | cons p rest ih =>
    intro pr cur hs k hk
    obtain ⟨hcur, nd, hnd, _, hrest⟩ := hs
    subst hcur
    cases k with
    | zero => simp at hk
    | succ j =>
      have hg : getNode h p = nd := by simp [getNode, hnd]
      simp only [fwdTrav, hg]
      rw [ih hrest j (by simpa using hk)]

/-- Given enough fuel, backward traversal of a whole mirror chain lists its
nodes. -/
theorem revseg_bwdTrav {h : Heap} {ns : List Ptr} :
    ∀ {nx cur : Option Ptr}, revseg h nx cur ns none →
      ∀ k, ns.length ≤ k → bwdTrav h cur k = ns := by
  induction ns with
  | nil =>
    intro nx cur hs k _
    rw [revseg_nil] at hs; subst hs
    cases k <;> simp [bwdTrav]
  | cons p rest ih =>
    intro nx cur hs k hk
    obtain ⟨hcur, nd, hnd, _, hrest⟩ := hs
    subst hcur
    cases k with
    | zero => simp at hk
    | succ j =>
      have hg : getNode h p = nd := by simp [getNode, hnd]
      simp only [bwdTrav, hg]
      rw [ih hrest j (by simpa using hk)]

/-- A forward-seated iterator yields exactly the chain's addresses. -/
theorem seg_runIter {h : Heap} {ns : List Ptr} :
    ∀ {pr cur : Option Ptr}, seg h pr cur ns none →
      ∀ k, ns.length ≤ k → runIter h ⟨cur, AL_START_HEAD⟩ k = ns := by
  induction ns with
  | nil =>
    intro pr cur hs k _
    rw [seg_nil] at hs; subst hs
    cases k <;> simp [runIter, listNext]
  | cons p rest ih =>
    intro pr cur hs k hk
    obtain ⟨hcur, nd, hnd, _, hrest⟩ := hs
    subst hcur
    cases k with
    | zero => simp at hk
    | succ j =>
      have hg : getNode h p = nd := by simp [getNode, hnd]
      have h1 := ih hrest j (by simpa using hk)
      simp only [AL_START_HEAD] at h1
      simp [runIter, listNext, hg, AL_START_HEAD, h1]

/-- A backward-seated iterator yields exactly the mirror chain's addresses. -/
theorem revseg_runIter {h : Heap} {ns : List Ptr} :
    ∀ {nx cur : Option Ptr}, revseg h nx cur ns none →
      ∀ k, ns.length ≤ k → runIter h ⟨cur, AL_START_TAIL⟩ k = ns := by
  induction ns with
  | nil =>
    intro nx cur hs k _
    rw [revseg_nil] at hs; subst hs
    cases k <;> simp [runIter, listNext]
  | cons p rest ih =>
    intro nx cur hs k hk
    obtain ⟨hcur, nd, hnd, _, hrest⟩ := hs
    subst hcur
    cases k with
    | zero => simp at hk
    | succ j =>
      have hg : getNode h p = nd := by simp [getNode, hnd]
      have h1 := ih hrest j (by simpa using hk)
      simp only [AL_START_TAIL] at h1
      simp [runIter, listNext, hg, AL_START_TAIL, AL_START_HEAD, h1]

/-!
## Heap accessor lemmas
-/

theorem hupd_get_eq (h : Heap) (p : Ptr) (nd : listNode) : hupd h p nd p = some nd := by
  simp [hupd]

theorem hupd_get_ne (h : Heap) (p : Ptr) (nd : listNode) {q : Ptr} (hq : q ≠ p) :
    hupd h p nd q = h q := by
  simp [hupd, hq]

theorem writePrev_get_ne (h : Heap) (p : Ptr) (v : Option Ptr) {q : Ptr} (hq : q ≠ p) :
    writePrev h p v q = h q := by
  simp [writePrev, hq]

theorem writeNext_get_ne (h : Heap) (p : Ptr) (v : Option Ptr) {q : Ptr} (hq : q ≠ p) :
    writeNext h p v q = h q := by
  simp [writeNext, hq]

theorem hfree_get_ne (h : Heap) (p : Ptr) {q : Ptr} (hq : q ≠ p) :
    hfree h p q = h q := by
  simp [hfree, hq]

theorem writePrev_get_eq {h : Heap} {p : Ptr} {v : Option Ptr} {nd : listNode}
    (hnd : h p = some nd) : writePrev h p v p = some { nd with prev := v } := by
  simp [writePrev, hnd]

theorem writeNext_get_eq {h : Heap} {p : Ptr} {v : Option Ptr} {nd : listNode}
    (hnd : h p = some nd) : writeNext h p v p = some { nd with next := v } := by
  simp [writeNext, hnd]

theorem getNode_eq {h : Heap} {p : Ptr} {nd : listNode} (hnd : h p = some nd) :
    getNode h p = nd := by
  simp [getNode, hnd]

theorem writePrev_value (h : Heap) (p : Ptr) (v : Option Ptr) (q : Ptr) :
    (getNode (writePrev h p v) q).value = (getNode h q).value := by
  by_cases hq : q = p
  · subst hq; cases hp : h q <;> simp [writePrev, getNode, hp]
  · unfold getNode; rw [writePrev_get_ne h p v hq]

theorem writeNext_value (h : Heap) (p : Ptr) (v : Option Ptr) (q : Ptr) :
    (getNode (writeNext h p v) q).value = (getNode h q).value := by
  by_cases hq : q = p
  · subst hq; cases hp : h q <;> simp [writeNext, getNode, hp]
  · unfold getNode; rw [writeNext_get_ne h p v hq]

/-- All addresses of a represented list differ from the fresh address. -/
theorem lstRep.fresh_not_mem {σ : State} {l : list} {ns : List Ptr}
    (hrep : lstRep σ l ns) : σ.ctr ∉ ns := fun hc =>
  absurd (hrep.bounded _ hc) (lt_irrefl _)

/-!
## `listAddNodeHead` / `listAddNodeTail`
-/

/-- Effect of a successful `listAddNodeHead`: the fresh node, holding the given
value, is linked before the old head; everything else is untouched. -/
theorem addHead_rep {σ : State} {l : list} {ns : List Ptr} {v : Val}
    (hrep : lstRep σ l ns) :
    ∃ σ' l', listAddNodeHead σ l v true = some (σ', l') ∧
      lstRep σ' l' (σ.ctr :: ns) ∧
      l'.head = some σ.ctr ∧ l'.len = l.len + 1 ∧
      (getNode σ'.heap σ.ctr).value = v ∧
      σ'.ctr = σ.ctr + 1 ∧ σ'.freed = σ.freed ∧
      (∀ p ∈ ns, (getNode σ'.heap p).value = (getNode σ.heap p).value) ∧
      l'.dup = l.dup ∧ l'.free = l.free ∧ l'.matchfn = l.matchfn := by
  by_cases h0 : l.len = 0
  · have hns : ns = [] := List.eq_nil_of_length_eq_zero (hrep.len_ok.symm.trans h0)
    subst hns
    refine ⟨{ σ with heap := hupd σ.heap σ.ctr ⟨v, none, none⟩, ctr := σ.ctr + 1 },
            { l with head := some σ.ctr, tail := some σ.ctr, len := l.len + 1 },
            by simp [listAddNodeHead, h0], ?_, rfl, rfl, ?_, rfl, rfl, ?_, rfl, rfl, rfl⟩
    · exact ⟨⟨rfl, ⟨v, none, none⟩, hupd_get_eq .., rfl, rfl⟩, rfl, by simp [h0],
        by simp, by simp⟩
    · show (getNode (hupd σ.heap σ.ctr ⟨v, none, none⟩) σ.ctr).value = v
      rw [getNode_eq (hupd_get_eq ..)]
    · intro p hp; cases hp
  · cases hns : ns with
    | nil => exact absurd (hrep.len_ok.trans (by simp [hns])) h0
    | cons q rest =>
      obtain ⟨hq, qnd, hqnd, hqprev, hqrest⟩ := hns ▸ hrep.chain
      have hqmem : q ∈ ns := by simp [hns]
      have hqc : q ≠ σ.ctr := Nat.ne_of_lt (hrep.bounded q hqmem)
      have hfresh := hrep.fresh_not_mem
      set c := σ.ctr with hc
      set h1 : Heap := hupd σ.heap c ⟨v, none, some q⟩ with hh1
      set h2 : Heap := writePrev h1 q (some c) with hh2
      have hrun : listAddNodeHead σ l v true =
          some ({ σ with heap := h2, ctr := c + 1 },
                { l with head := some c, len := l.len + 1 }) := by
        rw [hh2, hh1]
        simp [listAddNodeHead, h0, hq, hc]
      refine ⟨_, _, hrun, ?_, rfl, rfl, ?_, rfl, rfl, ?_, rfl, rfl, rfl⟩
      · -- the representation after insertion at the head
        have hchain1 : seg h1 none l.head ns none := by
          refine seg_frame (fun p hp => ?_) hrep.chain
          exact hupd_get_ne _ _ _ (fun he => hfresh (he ▸ hp))
        have hchain2 : seg h2 (some c) (some q) (q :: rest) none := by
          rw [hns, hq] at hchain1
          exact seg_reanchor (List.Nodup.not_mem (hns ▸ hrep.nodup)) hchain1
        have hc2 : h2 c = some ⟨v, none, some q⟩ := by
          rw [hh2, writePrev_get_ne _ _ _ (Ne.symm hqc), hh1]
          exact hupd_get_eq ..
        refine ⟨?_, ?_, ?_, ?_, ?_⟩
        · show seg h2 none (some c) (c :: q :: rest) none
          exact ⟨rfl, ⟨v, none, some q⟩, hc2, rfl, hchain2⟩
        · show l.tail = endp none (c :: q :: rest)
          simp [hrep.tail_ok, hns, endp_cons]
        · show l.len + 1 = (c :: q :: rest).length
          simp [hrep.len_ok, hns]
        · exact List.nodup_cons.mpr ⟨hns ▸ hfresh, hns ▸ hrep.nodup⟩
        · intro p hp
          rcases List.mem_cons.mp hp with h1 | h1
          · simp [h1]
          · exact Nat.lt_succ_of_lt (hrep.bounded p (hns ▸ h1))
      · -- the fresh node holds the value
        show (getNode h2 c).value = v
        rw [hh2, writePrev_value, hh1, getNode_eq (hupd_get_eq ..)]
      · -- old values untouched
        intro p hp
        have hpc : p ≠ c := fun he => (hns ▸ hfresh) (he ▸ hp)
        show (getNode h2 p).value = (getNode σ.heap p).value
        rw [hh2, writePrev_value, hh1]
        simp [getNode, hupd, hpc]

/-- A concat's new last element is not among the previous ones. -/
theorem not_mem_of_nodup_concat {ns : List Ptr} {t : Ptr}
    (h : (ns ++ [t]).Nodup) : t ∉ ns := fun hm =>
  (List.nodup_append.mp h).2.2 hm (by simp)

/-- Appending an element not yet present keeps a list duplicate-free. -/
theorem nodup_concat_of {ns : List Ptr} {c : Ptr} (h : ns.Nodup) (hc : c ∉ ns) :
    (ns ++ [c]).Nodup :=
  List.nodup_append.mpr ⟨h, List.nodup_singleton c,
    fun _a ha hb => hc ((List.mem_singleton.mp hb) ▸ ha)⟩

/-- Effect of a successful `listAddNodeTail`: the fresh node, holding the given
value, is linked after the old tail; everything else is untouched. -/
theorem addTail_rep {σ : State} {l : list} {ns : List Ptr} {v : Val}
    (hrep : lstRep σ l ns) :
    ∃ σ' l', listAddNodeTail σ l v true = some (σ', l') ∧
      lstRep σ' l' (ns ++ [σ.ctr]) ∧
      l'.tail = some σ.ctr ∧ l'.len = l.len + 1 ∧
      (getNode σ'.heap σ.ctr).value = v ∧
      σ'.ctr = σ.ctr + 1 ∧ σ'.freed = σ.freed ∧
      (∀ p ∈ ns, (getNode σ'.heap p).value = (getNode σ.heap p).value) ∧
      (∀ p, p ≠ σ.ctr → p ∉ ns → σ'.heap p = σ.heap p) ∧
      l'.dup = l.dup ∧ l'.free = l.free ∧ l'.matchfn = l.matchfn := by
  by_cases h0 : l.len = 0
  · have hns : ns = [] := List.eq_nil_of_length_eq_zero (hrep.len_ok.symm.trans h0)
    subst hns
    refine ⟨{ σ with heap := hupd σ.heap σ.ctr ⟨v, none, none⟩, ctr := σ.ctr + 1 },
            { l with head := some σ.ctr, tail := some σ.ctr, len := l.len + 1 },
            by simp [listAddNodeTail, h0], ?_, rfl, rfl, ?_, rfl, rfl, ?_, ?_, rfl, rfl, rfl⟩
    · exact ⟨⟨rfl, ⟨v, none, none⟩, hupd_get_eq .., rfl, rfl⟩, rfl, by simp [h0],
        by simp, by simp⟩
    · show (getNode (hupd σ.heap σ.ctr ⟨v, none, none⟩) σ.ctr).value = v
      rw [getNode_eq (hupd_get_eq ..)]
    · intro p hp; cases hp
    · intro p hpc _
      exact hupd_get_ne _ _ _ hpc
  · rcases List.eq_nil_or_concat ns with hns | ⟨ns', t, hns⟩
    · exact absurd (hrep.len_ok.trans (by simp [hns])) h0
    · rw [List.concat_eq_append] at hns
      have htail : l.tail = some t := by rw [hrep.tail_ok, hns, endp_concat]
      have htmem : t ∈ ns := by simp [hns]
      have htc : t ≠ σ.ctr := Nat.ne_of_lt (hrep.bounded t htmem)
      have hfresh := hrep.fresh_not_mem
      have htns : t ∉ ns' := not_mem_of_nodup_concat (hns ▸ hrep.nodup)
      set c := σ.ctr with hc
      set h1 : Heap := hupd σ.heap c ⟨v, some t, none⟩ with hh1
      set h2 : Heap := writeNext h1 t (some c) with hh2
      have hrun : listAddNodeTail σ l v true =
          some ({ σ with heap := h2, ctr := c + 1 },
                { l with tail := some c, len := l.len + 1 }) := by
        rw [hh2, hh1]
        simp [listAddNodeTail, h0, htail, hc]
      have hc2 : h2 c = some ⟨v, some t, none⟩ := by
        rw [hh2, writeNext_get_ne _ _ _ (Ne.symm htc), hh1]
        exact hupd_get_eq ..
      refine ⟨_, _, hrun, ?_, rfl, rfl, ?_, rfl, rfl, ?_, ?_, rfl, rfl, rfl⟩
      · -- the representation after insertion at the tail
        have hchain1 : seg h1 none l.head ns none := by
          refine seg_frame (fun p hp => ?_) hrep.chain
          exact hupd_get_ne _ _ _ (fun he => hfresh (he ▸ hp))
        have hchain2 : seg h2 none l.head (ns' ++ [t]) (some c) := by
          rw [hns] at hchain1
          exact seg_retarget htns hchain1
        refine ⟨?_, ?_, ?_, ?_, ?_⟩
        · show seg h2 none l.head (ns ++ [c]) none
          rw [hns]
          refine seg_append.mpr ⟨some c, hchain2, rfl, ⟨v, some t, none⟩, hc2,
            endp_concat.symm, rfl⟩
        · show (some c : Option Ptr) = endp none (ns ++ [c])
          rw [endp_concat]
        · show l.len + 1 = (ns ++ [c]).length
          simp [hrep.len_ok]
        · exact nodup_concat_of hrep.nodup hfresh
        · intro p hp
          rcases List.mem_append.mp hp with h1 | h1
          · exact Nat.lt_succ_of_lt (hrep.bounded p h1)
          · simp [List.mem_singleton.mp h1]
      · -- the fresh node holds the value
        show (getNode h2 c).value = v
        rw [hh2, writeNext_value, hh1, getNode_eq (hupd_get_eq ..)]
      · -- old values untouched
        intro p hp
        have hpc : p ≠ c := fun he => hfresh (he ▸ hp)
        show (getNode h2 p).value = (getNode σ.heap p).value
        rw [hh2, writeNext_value, hh1]
        simp [getNode, hupd, hpc]
      · -- all addresses outside the list and the fresh one untouched
        intro p hpc hpns
        have hpt : p ≠ t := fun he => hpns (he ▸ htmem)
        show h2 p = σ.heap p
        rw [hh2, writeNext_get_ne _ _ _ hpt, hh1, hupd_get_ne _ _ _ hpc]

/-- `endp` splits over append. -/
theorem endp_append {xs ys : List Ptr} :
    ∀ {pr : Option Ptr}, endp pr (xs ++ ys) = endp (endp pr xs) ys := by
  induction xs with
  | nil => intro pr; rfl
  | cons p rest ih => intro pr; exact ih

/-- Effect of `listDelNode` on a represented list containing the node:
exactly that node is unlinked and freed, the release callback fires exactly
when installed, and `len` drops by one. -/
theorem delNode_rep {σ : State} {l : list} {pre post : List Ptr} {node : Ptr}
    (hrep : lstRep σ l (pre ++ node :: post)) :
    ∃ σ' l', listDelNode σ l node = (σ', l') ∧
      lstRep σ' l' (pre ++ post) ∧
      l'.len = l.len - 1 ∧
      σ'.freed = (if l.free then σ.freed ++ [(getNode σ.heap node).value]
                  else σ.freed) ∧
      σ'.ctr = σ.ctr ∧
      σ'.heap node = none ∧
      (∀ p ∈ pre ++ post, (getNode σ'.heap p).value = (getNode σ.heap p).value) ∧
      l'.dup = l.dup ∧ l'.free = l.free ∧ l'.matchfn = l.matchfn := by
  obtain ⟨mid, hpre, hrest⟩ := seg_append.mp hrep.chain
  obtain ⟨hmid, nd, hnd, hprev, hpost⟩ := hrest
  subst hmid
  have hnodup := hrep.nodup
  have hnpre : node ∉ pre := fun hm =>
    (List.nodup_append.mp hnodup).2.2 hm (List.mem_cons_self node post)
  have hnpost : node ∉ post :=
    (List.nodup_cons.mp (List.nodup_append.mp hnodup).2.1).1
  have hnm : node ∉ pre ++ post := fun hm =>
    (List.mem_append.mp hm).elim (fun h => hnpre h) (fun h => hnpost h)
  have hsub : (pre ++ post).Nodup := by
    rcases List.nodup_append.mp hnodup with ⟨h1, h2, h3⟩
    exact List.nodup_append.mpr ⟨h1, (List.nodup_cons.mp h2).2,
      fun a ha hb => h3 ha (List.mem_cons_of_mem _ hb)⟩
  have hgn : getNode σ.heap node = nd := getNode_eq hnd
  have hlen : l.len - 1 = (pre ++ post).length := by
    rw [hrep.len_ok]; simp only [List.length_append, List.length_cons]; omega
  have hbnd : ∀ p ∈ pre ++ post, p < σ.ctr := fun p hp => hrep.bounded p (by
    rcases List.mem_append.mp hp with h1 | h1
    · exact List.mem_append.mpr (Or.inl h1)
    · exact List.mem_append.mpr (Or.inr (List.mem_cons_of_mem _ h1)))
  rcases List.eq_nil_or_concat pre with hpre0 | ⟨pre', pp, hpre0⟩
  · -- the node is the head
    subst hpre0
    have hprev' : nd.prev = none := by simpa using hprev
    cases post with
    | nil =>
      -- singleton list
      have hnext' : nd.next = none := hpost
      refine ⟨{ σ with
                  heap := hfree σ.heap node,
                  freed := if l.free then σ.freed ++ [nd.value] else σ.freed },
              { l with head := none, tail := none, len := l.len - 1 },
              by simp [listDelNode, hgn, hprev', hnext'],
              ⟨rfl, rfl, hlen, List.nodup_nil, by simp⟩,
              rfl, by rw [hgn], rfl, by simp [hfree], ?_, rfl, rfl, rfl⟩
      intro p hp; cases hp
    | cons q rest =>
      have hnext' : nd.next = some q := hpost.1
      have hqrest : q ∉ rest := (List.nodup_cons.mp hsub).1
      refine ⟨{ σ with
                  heap := hfree (writePrev σ.heap q none) node,
                  freed := if l.free then σ.freed ++ [nd.value] else σ.freed },
              { l with head := some q, len := l.len - 1 },
              by simp [listDelNode, hgn, hprev', hnext'],
              ?_, rfl, by rw [hgn], rfl, by simp [hfree], ?_, rfl, rfl, rfl⟩
      · refine ⟨?_, ?_, hlen, hsub, hbnd⟩
        · show seg (hfree (writePrev σ.heap q none) node) none (some q) (q :: rest) none
          have h2 := @seg_reanchor _ _ _ _ none _ _ hqrest (hnext' ▸ hpost)
          refine seg_frame (fun p hp => ?_) h2
          exact hfree_get_ne _ _ (fun he => hnpost (he ▸ hp))
        · show l.tail = endp none ([] ++ q :: rest)
          rw [hrep.tail_ok]; rfl
      · intro p hp
        have hpn : p ≠ node := fun he => hnm (he ▸ hp)
        show (getNode (hfree (writePrev σ.heap q none) node) p).value =
          (getNode σ.heap p).value
        unfold getNode
        rw [hfree_get_ne _ _ hpn]
        have h1 := writePrev_value σ.heap q none p
        unfold getNode at h1
        exact h1
  · -- the node has a predecessor
    rw [List.concat_eq_append] at hpre0
    subst hpre0
    have hprev' : nd.prev = some pp := by rw [hprev, endp_concat]
    have hppnode : pp ≠ node := fun he => hnpre (he ▸ by simp)
    have hpppre : pp ∉ pre' := not_mem_of_nodup_concat (List.nodup_append.mp hnodup).1
    have hppmem : pp ∈ pre' ++ [pp] := by simp
    cases post with
    | nil =>
      -- the node is the tail
      have hnext' : nd.next = none := hpost
      refine ⟨{ σ with
                  heap := hfree (writeNext σ.heap pp none) node,
                  freed := if l.free then σ.freed ++ [nd.value] else σ.freed },
              { l with tail := some pp, len := l.len - 1 },
              by simp [listDelNode, hgn, hprev', hnext'],
              ?_, rfl, by rw [hgn], rfl, by simp [hfree], ?_, rfl, rfl, rfl⟩
      · refine ⟨?_, ?_, hlen, hsub, hbnd⟩
        · show seg (hfree (writeNext σ.heap pp none) node) none l.head
            (pre' ++ [pp] ++ []) none
          rw [List.append_nil]
          have h1 := @seg_retarget _ _ _ _ _ _ none hpppre hpre
          refine seg_frame (fun p hp => ?_) h1
          exact hfree_get_ne _ _ (fun he => hnpre (he ▸ hp))
        · show (some pp : Option Ptr) = endp none (pre' ++ [pp] ++ [])
          rw [List.append_nil, endp_concat]
      · intro p hp
        have hpn : p ≠ node := fun he => hnm (he ▸ hp)
        show (getNode (hfree (writeNext σ.heap pp none) node) p).value =
          (getNode σ.heap p).value
        unfold getNode
        rw [hfree_get_ne _ _ hpn]
        have h1 := writeNext_value σ.heap pp none p
        unfold getNode at h1
        exact h1
    | cons q rest =>
      -- interior node
      have hnext' : nd.next = some q := hpost.1
      have hdisj := (List.nodup_append.mp hsub).2.2
      have hqrest : q ∉ rest := (List.nodup_cons.mp (List.nodup_append.mp hsub).2.1).1
      have hqpre : q ∉ pre' ++ [pp] := fun hm => hdisj hm (List.mem_cons_self q rest)
      refine ⟨{ σ with
                heap := hfree (writePrev (writeNext σ.heap pp (some q)) q (some pp)) node,
                freed := if l.free then σ.freed ++ [nd.value] else σ.freed },
              { l with len := l.len - 1 },
              by simp [listDelNode, hgn, hprev', hnext'],
              ?_, rfl, by rw [hgn], rfl, by simp [hfree], ?_, rfl, rfl, rfl⟩
      · refine ⟨?_, ?_, hlen, hsub, hbnd⟩
        · show seg (hfree (writePrev (writeNext σ.heap pp (some q)) q (some pp)) node)
            none l.head (pre' ++ [pp] ++ q :: rest) none
          refine seg_append.mpr ⟨some q, ?_, ?_⟩
          · -- the prefix, retargeted to q
            have h1 := @seg_retarget _ _ _ _ _ _ (some q) hpppre hpre
            refine seg_frame (fun p hp => ?_) h1
            rw [hfree_get_ne _ _ (show p ≠ node from fun he => hnpre (he ▸ hp))]
            exact writePrev_get_ne _ _ _ (fun he => hqpre (he ▸ hp))
          · -- the suffix, re-anchored to pp
            rw [endp_concat]
            have h1 : seg (writeNext σ.heap pp (some q)) (some node) (some q)
                (q :: rest) none := by
              refine seg_frame (fun p hp => ?_) (hnext' ▸ hpost)
              exact writeNext_get_ne _ _ _ (fun he => hdisj (he ▸ hppmem) hp)
            have h2 := @seg_reanchor _ _ _ _ (some pp) _ _ hqrest h1
            refine seg_frame (fun p hp => ?_) h2
            exact hfree_get_ne _ _ (fun he => hnpost (he ▸ hp))
        · show l.tail = endp none (pre' ++ [pp] ++ q :: rest)
          simp [hrep.tail_ok, endp_append, endp_cons]
      · intro p hp
        have hpn : p ≠ node := fun he => hnm (he ▸ hp)
        show (getNode (hfree (writePrev (writeNext σ.heap pp (some q)) q (some pp))
            node) p).value = (getNode σ.heap p).value
        unfold getNode
        rw [hfree_get_ne _ _ hpn]
        have h1 := writePrev_value (writeNext σ.heap pp (some q)) q (some pp) p
        have h2 := writeNext_value σ.heap pp (some q) p
        unfold getNode at h1 h2
        rw [h1, h2]

/-- Where `endp` can point: at the incoming anchor or at a member. -/
theorem endp_some_mem {ns : List Ptr} :
    ∀ {pr : Option Ptr} {x : Ptr}, endp pr ns = some x → pr = some x ∨ x ∈ ns := by
  induction ns with
  | nil => intro pr x h; exact Or.inl h
  | cons p rest ih =>
    intro pr x h
    rcases ih h with h1 | h1
    · exact Or.inr (by simp [Option.some_injective _ h1])
    · exact Or.inr (List.mem_cons_of_mem _ h1)

/-- Inserting a fresh element in the middle keeps a list duplicate-free. -/
theorem nodup_insert_mid {xs ys : List Ptr} {c : Ptr} (h : (xs ++ ys).Nodup)
    (hc : c ∉ xs ++ ys) : (xs ++ c :: ys).Nodup := by
  rcases List.nodup_append.mp h with ⟨h1, h2, h3⟩
  refine List.nodup_append.mpr ⟨h1, List.nodup_cons.mpr
    ⟨fun hm => hc (List.mem_append.mpr (Or.inr hm)), h2⟩, ?_⟩
  intro a ha hb
  rcases List.mem_cons.mp hb with h4 | h4
  · exact hc (h4 ▸ List.mem_append.mpr (Or.inl ha))
  · exact h3 ha h4

/-- Effect of a successful `listInsertNode` with `after = true`: the fresh node
is linked immediately after the anchor (and becomes the tail exactly when the
anchor was the tail). -/
theorem insertNode_after_rep {σ : State} {l : list} {pre post : List Ptr}
    {old_node : Ptr} {v : Val} (hrep : lstRep σ l (pre ++ old_node :: post)) :
    ∃ σ' l', listInsertNode σ l old_node v true true = some (σ', l') ∧
      lstRep σ' l' (pre ++ old_node :: σ.ctr :: post) ∧
      l'.len = l.len + 1 ∧
      (getNode σ'.heap σ.ctr).value = v ∧
      σ'.ctr = σ.ctr + 1 ∧ σ'.freed = σ.freed ∧
      (∀ p ∈ pre ++ old_node :: post,
        (getNode σ'.heap p).value = (getNode σ.heap p).value) ∧
      l'.dup = l.dup ∧ l'.free = l.free ∧ l'.matchfn = l.matchfn := by
  obtain ⟨mid, hpre, hrest⟩ := seg_append.mp hrep.chain
  obtain ⟨hmid, nd, hnd, hprev, hpost⟩ := hrest
  subst hmid
  have hnodup := hrep.nodup
  have hfresh := hrep.fresh_not_mem
  have hnpre : old_node ∉ pre := fun hm =>
    (List.nodup_append.mp hnodup).2.2 hm (List.mem_cons_self old_node post)
  have honpost : old_node ∉ post :=
    (List.nodup_cons.mp (List.nodup_append.mp hnodup).2.1).1
  have hanc : old_node ∈ pre ++ old_node :: post := by simp
  have honc : old_node ≠ σ.ctr := Nat.ne_of_lt (hrep.bounded _ hanc)
  have hgn : getNode σ.heap old_node = nd := getNode_eq hnd
  cases post with
  | nil =>
    -- the anchor is the tail: the fresh node becomes the new tail
    have hnext' : nd.next = none := hpost
    have htail : l.tail = some old_node := by
      rw [hrep.tail_ok, endp_append]; rfl
    refine ⟨{ σ with
              heap := writeNext (hupd σ.heap σ.ctr ⟨v, some old_node, none⟩)
                old_node (some σ.ctr),
              ctr := σ.ctr + 1 },
            { l with tail := some σ.ctr, len := l.len + 1 },
            by simp [listInsertNode, hgn, hnext', htail],
            ?_, rfl, ?_, rfl, rfl, ?_, rfl, rfl, rfl⟩
    · have hch0 : seg σ.heap none l.head (pre ++ [old_node]) none :=
        seg_append.mpr ⟨some old_node, hpre, rfl, nd, hnd, hprev, hnext' ▸ hpost⟩
      have hch1 : seg (hupd σ.heap σ.ctr ⟨v, some old_node, none⟩) none l.head
          (pre ++ [old_node]) none := by
        refine seg_frame (fun p hp => ?_) hch0
        exact hupd_get_ne _ _ _ (show p ≠ σ.ctr from fun he => hfresh (he ▸ hp))
      have hch2 := @seg_retarget _ _ _ _ _ _ (some σ.ctr) hnpre hch1
      have heq1 : pre ++ old_node :: σ.ctr :: ([] : List Ptr) =
          (pre ++ [old_node]) ++ [σ.ctr] := by simp
      refine ⟨?_, ?_, ?_, ?_, ?_⟩
      · show seg (writeNext (hupd σ.heap σ.ctr ⟨v, some old_node, none⟩) old_node
          (some σ.ctr)) none l.head (pre ++ old_node :: σ.ctr :: []) none
        rw [heq1]
        refine seg_append.mpr ⟨some σ.ctr, hch2, rfl, ⟨v, some old_node, none⟩, ?_,
          endp_concat.symm, rfl⟩
        rw [writeNext_get_ne _ _ _ (Ne.symm honc)]
        exact hupd_get_eq ..
      · show (some σ.ctr : Option Ptr) = endp none (pre ++ old_node :: σ.ctr :: [])
        rw [heq1, endp_concat]
      · show l.len + 1 = (pre ++ old_node :: σ.ctr :: []).length
        rw [hrep.len_ok]; simp
      · rw [heq1]
        exact nodup_concat_of (by simpa using hnodup) (fun hm => hfresh (by simpa using hm))
      · intro p hp
        show p < σ.ctr + 1
        rcases List.mem_append.mp hp with h1 | h1
        · exact Nat.lt_succ_of_lt (hrep.bounded p (List.mem_append.mpr (Or.inl h1)))
        · rcases List.mem_cons.mp h1 with h2 | h2
          · exact Nat.lt_succ_of_lt (hrep.bounded p (h2 ▸ hanc))
          · simp [List.mem_singleton.mp h2]
    · show (getNode (writeNext (hupd σ.heap σ.ctr ⟨v, some old_node, none⟩) old_node
        (some σ.ctr)) σ.ctr).value = v
      rw [writeNext_value, getNode_eq (hupd_get_eq ..)]
    · intro p hp
      have hpc : p ≠ σ.ctr := fun he => hfresh (he ▸ hp)
      show (getNode (writeNext (hupd σ.heap σ.ctr ⟨v, some old_node, none⟩) old_node
        (some σ.ctr)) p).value = (getNode σ.heap p).value
      rw [writeNext_value]
      unfold getNode
      rw [hupd_get_ne _ _ _ hpc]
  | cons q rest =>
    -- the anchor has a successor: the fresh node is spliced between them
    have hnext' : nd.next = some q := hpost.1
    have honqr : old_node ∉ q :: rest := honpost
    have hqon : q ≠ old_node := fun he => honqr (he ▸ List.mem_cons_self q rest)
    have hmem2 : ∀ p ∈ q :: rest, p ∈ pre ++ old_node :: q :: rest :=
      fun p hp => List.mem_append.mpr (Or.inr (List.mem_cons_of_mem _ hp))
    have hpc2 : ∀ p ∈ q :: rest, p ≠ σ.ctr :=
      fun p hp he => hfresh (he ▸ hmem2 p hp)
    have hpon : ∀ p ∈ q :: rest, p ≠ old_node :=
      fun p hp he => honqr (he ▸ hp)
    have hqc : q ≠ σ.ctr := hpc2 q (List.mem_cons_self q rest)
    have hqrest : q ∉ rest :=
      (List.nodup_cons.mp (List.nodup_cons.mp (List.nodup_append.mp hnodup).2.1).2).1
    have hqpre : q ∉ pre := fun hm =>
      (List.nodup_append.mp hnodup).2.2 hm (List.mem_cons_of_mem _ (List.mem_cons_self q rest))
    have ht1 : l.tail = endp (some q) rest := by
      rw [hrep.tail_ok]; simp [endp_append, endp_cons]
    have htail : ¬(l.tail = some old_node) := by
      rw [ht1]
      intro he
      rcases endp_some_mem he with h1 | h1
      · exact hqon (Option.some_injective _ h1)
      · exact honqr (List.mem_cons_of_mem _ h1)
    refine ⟨{ σ with
              heap := writePrev (writeNext (hupd σ.heap σ.ctr
                  ⟨v, some old_node, some q⟩) old_node (some σ.ctr)) q (some σ.ctr),
              ctr := σ.ctr + 1 },
            { l with len := l.len + 1 },
            by simp [listInsertNode, hgn, hnext', htail],
            ?_, rfl, ?_, rfl, rfl, ?_, rfl, rfl, rfl⟩
    · have hch0 : seg σ.heap none l.head (pre ++ [old_node]) (some q) :=
        seg_append.mpr ⟨some old_node, hpre, rfl, nd, hnd, hprev, hnext' ▸ rfl⟩
      have hfr1 : ∀ p ∈ pre ++ [old_node], p ≠ σ.ctr := fun p hp he =>
        hfresh (he ▸ (by
          rcases List.mem_append.mp hp with h1 | h1
          · exact List.mem_append.mpr (Or.inl h1)
          · exact (List.mem_singleton.mp h1) ▸ hanc))
      have hch1 : seg (hupd σ.heap σ.ctr ⟨v, some old_node, some q⟩) none l.head
          (pre ++ [old_node]) (some q) :=
        seg_frame (fun p hp => hupd_get_ne _ _ _ (hfr1 p hp)) hch0
      have hch2 := @seg_retarget _ _ _ _ _ _ (some σ.ctr) hnpre hch1
      have hch3 : seg (writePrev (writeNext (hupd σ.heap σ.ctr
          ⟨v, some old_node, some q⟩) old_node (some σ.ctr)) q (some σ.ctr))
          none l.head (pre ++ [old_node]) (some σ.ctr) := by
        refine seg_frame (fun p hp => ?_) hch2
        refine writePrev_get_ne _ _ _ (show p ≠ q from fun he => ?_)
        subst he
        rcases List.mem_append.mp hp with h1 | h1
        · exact hqpre h1
        · exact hqon (List.mem_singleton.mp h1)
      have hpost1 : seg σ.heap (some old_node) (some q) (q :: rest) none :=
        hnext' ▸ hpost
      have hpost2 : seg (writeNext (hupd σ.heap σ.ctr ⟨v, some old_node, some q⟩)
          old_node (some σ.ctr)) (some old_node) (some q) (q :: rest) none := by
        refine seg_frame (fun p hp => ?_) hpost1
        rw [writeNext_get_ne _ _ _ (hpon p hp)]
        exact hupd_get_ne _ _ _ (hpc2 p hp)
      have hpost3 := @seg_reanchor _ _ _ _ (some σ.ctr) _ _ hqrest hpost2
      have heq1 : pre ++ old_node :: σ.ctr :: q :: rest =
          (pre ++ [old_node]) ++ σ.ctr :: q :: rest := by simp
      refine ⟨?_, ?_, ?_, ?_, ?_⟩
      · show seg (writePrev (writeNext (hupd σ.heap σ.ctr
          ⟨v, some old_node, some q⟩) old_node (some σ.ctr)) q (some σ.ctr))
          none l.head (pre ++ old_node :: σ.ctr :: q :: rest) none
        rw [heq1]
        refine seg_append.mpr ⟨some σ.ctr, hch3, rfl, ⟨v, some old_node, some q⟩,
          ?_, endp_concat.symm, hpost3⟩
        rw [writePrev_get_ne _ _ _ (Ne.symm hqc),
          writeNext_get_ne _ _ _ (Ne.symm honc)]
        exact hupd_get_eq ..
      · show l.tail = endp none (pre ++ old_node :: σ.ctr :: q :: rest)
        rw [ht1]; simp [endp_append, endp_cons]
      · show l.len + 1 = (pre ++ old_node :: σ.ctr :: q :: rest).length
        rw [hrep.len_ok]; simp only [List.length_append, List.length_cons]; omega
      · rw [heq1]
        refine nodup_insert_mid (by simpa using hnodup) (fun hm => hfresh (by simpa using hm))
      · intro p hp
        show p < σ.ctr + 1
        rcases List.mem_append.mp hp with h1 | h1
        · exact Nat.lt_succ_of_lt (hrep.bounded p (List.mem_append.mpr (Or.inl h1)))
        · rcases List.mem_cons.mp h1 with h2 | h2
          · exact Nat.lt_succ_of_lt (hrep.bounded p (h2 ▸ hanc))
          · rcases List.mem_cons.mp h2 with h3 | h3
            · simp [h3]
            · exact Nat.lt_succ_of_lt (hrep.bounded p (hmem2 p h3))
    · show (getNode (writePrev (writeNext (hupd σ.heap σ.ctr
        ⟨v, some old_node, some q⟩) old_node (some σ.ctr)) q (some σ.ctr))
        σ.ctr).value = v
      rw [writePrev_value, writeNext_value, getNode_eq (hupd_get_eq ..)]
    · intro p hp
      have hpc : p ≠ σ.ctr := fun he => hfresh (he ▸ hp)
      show (getNode (writePrev (writeNext (hupd σ.heap σ.ctr
        ⟨v, some old_node, some q⟩) old_node (some σ.ctr)) q (some σ.ctr))
        p).value = (getNode σ.heap p).value
      rw [writePrev_value, writeNext_value]
      unfold getNode
      rw [hupd_get_ne _ _ _ hpc]

/-- Effect of a successful `listInsertNode` with `after = false`: the fresh
node is linked immediately before the anchor (and becomes the head exactly
when the anchor was the head). -/
theorem insertNode_before_rep {σ : State} {l : list} {pre post : List Ptr}
    {old_node : Ptr} {v : Val} (hrep : lstRep σ l (pre ++ old_node :: post)) :
    ∃ σ' l', listInsertNode σ l old_node v false true = some (σ', l') ∧
      lstRep σ' l' (pre ++ σ.ctr :: old_node :: post) ∧
      l'.len = l.len + 1 ∧
      (getNode σ'.heap σ.ctr).value = v ∧
      σ'.ctr = σ.ctr + 1 ∧ σ'.freed = σ.freed ∧
      (∀ p ∈ pre ++ old_node :: post,
        (getNode σ'.heap p).value = (getNode σ.heap p).value) ∧
      l'.dup = l.dup ∧ l'.free = l.free ∧ l'.matchfn = l.matchfn := by
  obtain ⟨mid, hpre, hrest⟩ := seg_append.mp hrep.chain
  obtain ⟨hmid, nd, hnd, hprev, hpost⟩ := hrest
  subst hmid
  have hnodup := hrep.nodup
  have hfresh := hrep.fresh_not_mem
  have hnpre : old_node ∉ pre := fun hm =>
    (List.nodup_append.mp hnodup).2.2 hm (List.mem_cons_self old_node post)
  have honpost : old_node ∉ post :=
    (List.nodup_cons.mp (List.nodup_append.mp hnodup).2.1).1
  have hanc : old_node ∈ pre ++ old_node :: post := by simp
  have honc : old_node ≠ σ.ctr := Nat.ne_of_lt (hrep.bounded _ hanc)
  have hgn : getNode σ.heap old_node = nd := getNode_eq hnd
  rcases List.eq_nil_or_concat pre with hpre0 | ⟨pre', pp, hpre0⟩
  · -- the anchor is the head: the fresh node becomes the new head
    subst hpre0
    have hprev' : nd.prev = none := by simpa using hprev
    have hhead : l.head = some old_node := hpre
    refine ⟨{ σ with
              heap := writePrev (hupd σ.heap σ.ctr ⟨v, none, some old_node⟩)
                old_node (some σ.ctr),
              ctr := σ.ctr + 1 },
            { l with head := some σ.ctr, len := l.len + 1 },
            by simp [listInsertNode, hgn, hprev', hhead],
            ?_, rfl, ?_, rfl, rfl, ?_, rfl, rfl, rfl⟩
    · have hch0 : seg σ.heap nd.prev (some old_node) (old_node :: post) none :=
        ⟨rfl, nd, hnd, rfl, hpost⟩
      have hch1 : seg (hupd σ.heap σ.ctr ⟨v, none, some old_node⟩) nd.prev
          (some old_node) (old_node :: post) none := by
        refine seg_frame (fun p hp => ?_) hch0
        exact hupd_get_ne _ _ _ (show p ≠ σ.ctr from fun he => hfresh (he ▸ hp))
      have hch2 := @seg_reanchor _ _ _ _ (some σ.ctr) _ _ honpost hch1
      refine ⟨?_, ?_, ?_, ?_, ?_⟩
      · show seg (writePrev (hupd σ.heap σ.ctr ⟨v, none, some old_node⟩) old_node
          (some σ.ctr)) none (some σ.ctr) ([] ++ σ.ctr :: old_node :: post) none
        refine ⟨rfl, ⟨v, none, some old_node⟩, ?_, rfl, hch2⟩
        rw [writePrev_get_ne _ _ _ (Ne.symm honc)]
        exact hupd_get_eq ..
      · show l.tail = endp none ([] ++ σ.ctr :: old_node :: post)
        rw [hrep.tail_ok]; rfl
      · show l.len + 1 = ([] ++ σ.ctr :: old_node :: post).length
        rw [hrep.len_ok]; simp only [List.length_append, List.length_cons]; omega
      · exact List.nodup_cons.mpr ⟨fun hm => hfresh (by simpa using hm),
          by simpa using hnodup⟩
      · intro p hp
        show p < σ.ctr + 1
        rcases (by simpa using hp : p = σ.ctr ∨ p = old_node ∨ p ∈ post) with h1 | h1 | h1
        · simp [h1]
        · exact Nat.lt_succ_of_lt (hrep.bounded p (by simp [h1]))
        · exact Nat.lt_succ_of_lt (hrep.bounded p (by simp [h1]))
    · show (getNode (writePrev (hupd σ.heap σ.ctr ⟨v, none, some old_node⟩) old_node
        (some σ.ctr)) σ.ctr).value = v
      rw [writePrev_value, getNode_eq (hupd_get_eq ..)]
    · intro p hp
      have hpc : p ≠ σ.ctr := fun he => hfresh (he ▸ hp)
      show (getNode (writePrev (hupd σ.heap σ.ctr ⟨v, none, some old_node⟩) old_node
        (some σ.ctr)) p).value = (getNode σ.heap p).value
      rw [writePrev_value]
      unfold getNode
      rw [hupd_get_ne _ _ _ hpc]
  · -- the anchor has a predecessor: the fresh node is spliced between them
    rw [List.concat_eq_append] at hpre0
    subst hpre0
    have hprev' : nd.prev = some pp := by rw [hprev, endp_concat]
    have hppmem : pp ∈ pre' ++ [pp] := by simp
    have hppon : pp ≠ old_node := fun he => hnpre (he ▸ hppmem)
    have hppc : pp ≠ σ.ctr :=
      Nat.ne_of_lt (hrep.bounded _ (List.mem_append.mpr (Or.inl hppmem)))
    have hpppre : pp ∉ pre' := not_mem_of_nodup_concat (List.nodup_append.mp hnodup).1
    have hdisj : ∀ p ∈ old_node :: post, p ≠ pp := fun p hp he =>
      (List.nodup_append.mp hnodup).2.2 (he ▸ hppmem) hp
    obtain ⟨x, hx⟩ : ∃ x, (pre' ++ [pp]).head? = some x := by cases pre' <;> simp
    have hxmem : x ∈ pre' ++ [pp] := by
      cases pre' with
      | nil => simp at hx; simp [hx]
      | cons a t => simp at hx; simp [hx]
    have hhead : ¬(l.head = some old_node) := by
      have hh := seg_head hpre
      rw [hx] at hh
      simp only [Option.elim] at hh
      rw [hh]
      intro he
      exact hnpre ((Option.some_injective _ he) ▸ hxmem)
    refine ⟨{ σ with
              heap := writePrev (writeNext (hupd σ.heap σ.ctr
                  ⟨v, some pp, some old_node⟩) pp (some σ.ctr)) old_node (some σ.ctr),
              ctr := σ.ctr + 1 },
            { l with len := l.len + 1 },
            by simp [listInsertNode, hgn, hprev', hhead],
            ?_, rfl, ?_, rfl, rfl, ?_, rfl, rfl, rfl⟩
    · have hfr1 : ∀ p ∈ pre' ++ [pp], p ≠ σ.ctr := fun p hp he =>
        hfresh (he ▸ List.mem_append.mpr (Or.inl hp))
      have hch1 : seg (hupd σ.heap σ.ctr ⟨v, some pp, some old_node⟩) none l.head
          (pre' ++ [pp]) (some old_node) :=
        seg_frame (fun p hp => hupd_get_ne _ _ _ (hfr1 p hp)) hpre
      have hch2 := @seg_retarget _ _ _ _ _ _ (some σ.ctr) hpppre hch1
      have hch3 : seg (writePrev (writeNext (hupd σ.heap σ.ctr
          ⟨v, some pp, some old_node⟩) pp (some σ.ctr)) old_node (some σ.ctr))
          none l.head (pre' ++ [pp]) (some σ.ctr) := by
        refine seg_frame (fun p hp => ?_) hch2
        refine writePrev_get_ne _ _ _ (show p ≠ old_node from fun he => hnpre (he ▸ hp))
      have hin0 : seg σ.heap nd.prev (some old_node) (old_node :: post) none :=
        ⟨rfl, nd, hnd, rfl, hpost⟩
      have hin1 : seg (writeNext (hupd σ.heap σ.ctr ⟨v, some pp, some old_node⟩)
          pp (some σ.ctr)) nd.prev (some old_node) (old_node :: post) none := by
        refine seg_frame (fun p hp => ?_) hin0
        rw [writeNext_get_ne _ _ _ (hdisj p hp)]
        exact hupd_get_ne _ _ _ (show p ≠ σ.ctr from fun he =>
          hfresh (he ▸ List.mem_append.mpr (Or.inr hp)))
      have hin2 := @seg_reanchor _ _ _ _ (some σ.ctr) _ _ honpost hin1
      refine ⟨?_, ?_, ?_, ?_, ?_⟩
      · show seg (writePrev (writeNext (hupd σ.heap σ.ctr
          ⟨v, some pp, some old_node⟩) pp (some σ.ctr)) old_node (some σ.ctr))
          none l.head ((pre' ++ [pp]) ++ σ.ctr :: old_node :: post) none
        refine seg_append.mpr ⟨some σ.ctr, hch3, rfl, ⟨v, some pp, some old_node⟩,
          ?_, endp_concat.symm ▸ rfl, hin2⟩
        rw [writePrev_get_ne _ _ _ (Ne.symm honc),
          writeNext_get_ne _ _ _ (Ne.symm hppc)]
        exact hupd_get_eq ..
      · show l.tail = endp none ((pre' ++ [pp]) ++ σ.ctr :: old_node :: post)
        rw [hrep.tail_ok]; simp [endp_append, endp_cons]
      · show l.len + 1 = ((pre' ++ [pp]) ++ σ.ctr :: old_node :: post).length
        rw [hrep.len_ok]; simp only [List.length_append, List.length_cons]; omega
      · refine nodup_insert_mid (by simpa using hnodup) (fun hm => hfresh (by simpa using hm))
      · intro p hp
        show p < σ.ctr + 1
        rcases List.mem_append.mp hp with h1 | h1
        · exact Nat.lt_succ_of_lt (hrep.bounded p (List.mem_append.mpr (Or.inl h1)))
        · rcases List.mem_cons.mp h1 with h2 | h2
          · simp [h2]
          · exact Nat.lt_succ_of_lt (hrep.bounded p (List.mem_append.mpr (Or.inr h2)))
    · show (getNode (writePrev (writeNext (hupd σ.heap σ.ctr
        ⟨v, some pp, some old_node⟩) pp (some σ.ctr)) old_node (some σ.ctr))
        σ.ctr).value = v
      rw [writePrev_value, writeNext_value, getNode_eq (hupd_get_eq ..)]
    · intro p hp
      have hpc : p ≠ σ.ctr := fun he => hfresh (he ▸ hp)
      show (getNode (writePrev (writeNext (hupd σ.heap σ.ctr
        ⟨v, some pp, some old_node⟩) pp (some σ.ctr)) old_node (some σ.ctr))
        p).value = (getNode σ.heap p).value
      rw [writePrev_value, writeNext_value]
      unfold getNode
      rw [hupd_get_ne _ _ _ hpc]

/-- `endp` from a `some` anchor is always `some`. -/
theorem endp_of_some {ns : List Ptr} : ∀ {x : Ptr}, ∃ y, endp (some x) ns = some y := by
  induction ns with
  | nil => intro x; exact ⟨x, rfl⟩
  | cons p rest ih => intro x; exact ih

/-- An `endp` value is the last element of the anchored list. -/
theorem endp_decomp {ns : List Ptr} : ∀ {x y : Ptr}, endp (some x) ns = some y →
    ∃ front, x :: ns = front ++ [y] := by
  induction ns with
  | nil =>
    intro x y h
    exact ⟨[], by simpa using (Option.some_injective _ h)⟩
  | cons p rest ih =>
    intro x y h
    obtain ⟨front, hfr⟩ := ih h
    exact ⟨x :: front, by rw [List.cons_append, ← hfr]⟩

theorem writePrev_mapval (h : Heap) (x : Ptr) (v : Option Ptr) (p : Ptr) :
    ((writePrev h x v) p).map listNode.value = (h p).map listNode.value := by
  by_cases hp : p = x
  · subst hp; cases hq : h p <;> simp [writePrev, hq]
  · rw [writePrev_get_ne _ _ _ hp]

theorem writeNext_mapval (h : Heap) (x : Ptr) (v : Option Ptr) (p : Ptr) :
    ((writeNext h x v) p).map listNode.value = (h p).map listNode.value := by
  by_cases hp : p = x
  · subst hp; cases hq : h p <;> simp [writeNext, hq]
  · rw [writeNext_get_ne _ _ _ hp]

/-- `listRotate` does nothing on lists of length at most one. -/
theorem rotate_noop {σ : State} {l : list} (h : l.len ≤ 1) :
    listRotate σ l = (σ, l) := by
  simp [listRotate, h]

/-- Effect of `listRotate` on a list with at least two nodes: the former tail
is relinked as the head, no node is allocated or freed, and every node keeps
its value. -/
theorem rotate_rep {σ : State} {l : list} {mid : List Ptr} {q t : Ptr}
    (hrep : lstRep σ l (q :: mid ++ [t])) :
    ∃ σ' l', listRotate σ l = (σ', l') ∧
      lstRep σ' l' (t :: q :: mid) ∧
      l'.head = some t ∧
      σ'.ctr = σ.ctr ∧ σ'.freed = σ.freed ∧
      (∀ p, (σ'.heap p).map listNode.value = (σ.heap p).map listNode.value) ∧
      l'.len = l.len ∧
      l'.dup = l.dup ∧ l'.free = l.free ∧ l'.matchfn = l.matchfn := by
  have hlen2 : ¬(l.len ≤ 1) := by
    rw [hrep.len_ok]; simp only [List.length_append, List.length_cons]; omega
  have htail : l.tail = some t := by
    rw [hrep.tail_ok]
    show endp (some q) (mid ++ [t]) = some t
    exact endp_concat
  obtain ⟨hcur, qnd, hqnd, hqprev, hqrest⟩ := hrep.chain
  obtain ⟨mid2, hfront, hlast⟩ := seg_append.mp (show seg σ.heap none l.head
    ((q :: mid) ++ [t]) none from hrep.chain)
  obtain ⟨hmid2, tnd, htnd, htprev, htnext⟩ := hlast
  subst hmid2
  rw [seg_nil] at htnext
  obtain ⟨lp, hlp⟩ : ∃ y, endp (some q) mid = some y := endp_of_some
  have htprev' : tnd.prev = some lp := by
    rw [htprev]
    show endp (some q) mid = some lp
    exact hlp
  obtain ⟨front, hfr⟩ := endp_decomp hlp
  have hnodup := hrep.nodup
  have htqm : t ∉ q :: mid :=
    not_mem_of_nodup_concat (show ((q :: mid) ++ [t]).Nodup from hnodup)
  have htq : t ≠ q := fun he => htqm (he ▸ List.mem_cons_self q mid)
  have htlp : t ≠ lp := fun he => htqm (by
    have : lp ∈ q :: mid := by rw [hfr]; simp
    exact he ▸ this)
  have hlpfront : lp ∉ front := by
    have h3 : (q :: mid).Nodup := (List.nodup_append.mp
      (show ((q :: mid) ++ [t]).Nodup from hnodup)).1
    rw [hfr] at h3
    exact not_mem_of_nodup_concat h3
  have hqmid : q ∉ mid := (List.nodup_cons.mp (List.nodup_append.mp
    (show ((q :: mid) ++ [t]).Nodup from hnodup)).1).1
  have hgt : getNode σ.heap t = tnd := getNode_eq htnd
  have hg2 : getNode (writePrev (writeNext σ.heap lp none) q (some t)) t = tnd := by
    unfold getNode
    rw [writePrev_get_ne _ _ _ htq, writeNext_get_ne _ _ _ htlp, htnd]
    rfl
  refine ⟨{ σ with
            heap := hupd (writePrev (writeNext σ.heap lp none) q (some t)) t
              ⟨tnd.value, none, some q⟩ },
          { l with head := some t, tail := some lp },
          ?_, ?_, rfl, rfl, rfl, ?_, rfl, rfl, rfl, rfl⟩
  · simp [listRotate, hlen2, htail, hgt, htprev', hcur, hg2]
  · refine ⟨?_, ?_, ?_, ?_, ?_⟩
    · show seg (hupd (writePrev (writeNext σ.heap lp none) q (some t)) t
        ⟨tnd.value, none, some q⟩) none (some t) (t :: q :: mid) none
      refine ⟨rfl, ⟨tnd.value, none, some q⟩, hupd_get_eq .., rfl, ?_⟩
      have hc1 : seg σ.heap none l.head (front ++ [lp]) (some t) := by
        rw [← hfr]; exact hfront
      have hc2 := @seg_retarget _ _ _ _ _ _ none hlpfront hc1
      have hc3 : seg (writeNext σ.heap lp none) none (some q) (q :: mid) none := by
        rw [← hfr] at hc2
        rw [← hcur]
        exact hc2
      have hc4 := @seg_reanchor _ _ _ _ (some t) _ _ hqmid hc3
      refine seg_frame (fun p hp => ?_) hc4
      exact hupd_get_ne _ _ _ (show p ≠ t from fun he => htqm (he ▸ hp))
    · show (some lp : Option Ptr) = endp none (t :: q :: mid)
      exact hlp.symm
    · show l.len = (t :: q :: mid).length
      rw [hrep.len_ok]
      simp only [List.length_append, List.length_cons, List.length_nil]
    · exact (List.perm_append_singleton t (q :: mid)).nodup hnodup
    · intro p hp
      show p < σ.ctr
      refine hrep.bounded p ?_
      rcases List.mem_cons.mp hp with h1 | h1
      · simp [h1]
      · rcases List.mem_cons.mp h1 with h2 | h2
        · simp [h2]
        · simp [h2]
  · intro p
    show ((hupd (writePrev (writeNext σ.heap lp none) q (some t)) t
      ⟨tnd.value, none, some q⟩) p).map listNode.value = (σ.heap p).map listNode.value
    by_cases hpt : p = t
    · subst hpt
      simp [hupd, htnd]
    · rw [hupd_get_ne _ _ _ hpt, writePrev_mapval, writeNext_mapval]

/-- Effect of `listJoin` on two represented lists with disjoint nodes: the
destination's chain becomes the concatenation (the very nodes, not copies),
lengths add, and the source is reset to a valid empty list.  No node is
allocated or freed and every node keeps its value. -/
theorem join_rep {σ : State} {l o : list} {ns1 ns2 : List Ptr}
    (hrep1 : lstRep σ l ns1) (hrep2 : lstRep σ o ns2)
    (hdisj : List.Disjoint ns1 ns2) :
    ∃ σ' l' o', listJoin σ l o = (σ', l', o') ∧
      lstRep σ' l' (ns1 ++ ns2) ∧
      l'.len = l.len + o.len ∧
      o' = { o with head := none, tail := none, len := 0 } ∧
      lstRep σ' { o with head := none, tail := none, len := 0 } [] ∧
      σ'.ctr = σ.ctr ∧ σ'.freed = σ.freed ∧
      (∀ p, (σ'.heap p).map listNode.value = (σ.heap p).map listNode.value) ∧
      l'.dup = l.dup ∧ l'.free = l.free ∧ l'.matchfn = l.matchfn := by
  cases ns2 with
  | nil =>
    have ho_head : o.head = none := hrep2.chain
    have ho_tail : o.tail = none := hrep2.tail_ok
    have ho_len : o.len = 0 := hrep2.len_ok
    rcases List.eq_nil_or_concat ns1 with hns1 | ⟨ns1', tp, hns1⟩
    · subst hns1
      have hl_tail : l.tail = none := hrep1.tail_ok
      refine ⟨σ, { l with head := none, len := l.len + o.len },
        { o with head := none, tail := none, len := 0 },
        by simp [listJoin, ho_head, ho_tail, hl_tail], ?_, rfl, rfl,
        ⟨rfl, rfl, rfl, List.nodup_nil, by simp⟩, rfl, rfl, fun p => rfl,
        rfl, rfl, rfl⟩
      exact ⟨rfl, hrep1.tail_ok, by simp [hrep1.len_ok, ho_len], List.nodup_nil, by simp⟩
    · rw [List.concat_eq_append] at hns1
      subst hns1
      have hl_tail : l.tail = some tp := by rw [hrep1.tail_ok, endp_concat]
      have htpns1 : tp ∉ ns1' := not_mem_of_nodup_concat hrep1.nodup
      refine ⟨{ σ with heap := writeNext σ.heap tp none },
        { l with len := l.len + o.len },
        { o with head := none, tail := none, len := 0 },
        by simp [listJoin, ho_head, ho_tail, hl_tail], ?_, rfl, rfl,
        ⟨rfl, rfl, rfl, List.nodup_nil, by simp⟩, rfl, rfl,
        fun p => writeNext_mapval .., rfl, rfl, rfl⟩
      refine ⟨?_, ?_, ?_, by simpa using hrep1.nodup, ?_⟩
      · show seg (writeNext σ.heap tp none) none l.head ((ns1' ++ [tp]) ++ []) none
        rw [List.append_nil]
        exact @seg_retarget _ _ _ _ _ _ none htpns1 hrep1.chain
      · show l.tail = endp none ((ns1' ++ [tp]) ++ [])
        rw [List.append_nil, endp_concat, hl_tail]
      · show l.len + o.len = ((ns1' ++ [tp]) ++ []).length
        rw [List.append_nil, hrep1.len_ok, ho_len]
        omega
      · intro p hp
        exact hrep1.bounded p (by simpa using hp)
  | cons q2 rest2 =>
    have ho_head : o.head = some q2 := hrep2.chain.1
    obtain ⟨t2, ht2⟩ : ∃ y, endp (some q2) rest2 = some y := endp_of_some
    have ho_tail : o.tail = some t2 := by rw [hrep2.tail_ok]; exact ht2
    have hq2rest : q2 ∉ rest2 := (List.nodup_cons.mp hrep2.nodup).1
    have hoch : seg σ.heap none (some q2) (q2 :: rest2) none := by
      rw [← ho_head]; exact hrep2.chain
    rcases List.eq_nil_or_concat ns1 with hns1 | ⟨ns1', tp, hns1⟩
    · subst hns1
      have hl_tail : l.tail = none := hrep1.tail_ok
      have hl_len : l.len = 0 := hrep1.len_ok
      refine ⟨{ σ with heap := writePrev σ.heap q2 none },
        { l with head := some q2, tail := some t2, len := l.len + o.len },
        { o with head := none, tail := none, len := 0 },
        by simp [listJoin, ho_head, ho_tail, hl_tail], ?_, rfl, rfl,
        ⟨rfl, rfl, rfl, List.nodup_nil, by simp⟩, rfl, rfl,
        fun p => writePrev_mapval .., rfl, rfl, rfl⟩
      refine ⟨?_, ?_, ?_, by simpa using hrep2.nodup, ?_⟩
      · show seg (writePrev σ.heap q2 none) none (some q2) ([] ++ q2 :: rest2) none
        exact @seg_reanchor _ _ _ _ none _ _ hq2rest hoch
      · show (some t2 : Option Ptr) = endp none ([] ++ q2 :: rest2)
        exact ht2.symm
      · show l.len + o.len = ([] ++ q2 :: rest2).length
        rw [hl_len, hrep2.len_ok]; simp
      · intro p hp
        exact hrep2.bounded p (by simpa using hp)
    · rw [List.concat_eq_append] at hns1
      subst hns1
      have hl_tail : l.tail = some tp := by rw [hrep1.tail_ok, endp_concat]
      have htpns1 : tp ∉ ns1' := not_mem_of_nodup_concat hrep1.nodup
      have htpmem : tp ∈ ns1' ++ [tp] := by simp
      have hq2ns1 : ∀ p ∈ ns1' ++ [tp], p ≠ q2 := fun p hp he =>
        hdisj hp (he ▸ List.mem_cons_self q2 rest2)
      have htpns2 : ∀ p ∈ q2 :: rest2, p ≠ tp := fun p hp he =>
        hdisj (he ▸ htpmem) hp
      refine ⟨{ σ with heap := writeNext (writePrev σ.heap q2 (some tp)) tp (some q2) },
        { l with tail := some t2, len := l.len + o.len },
        { o with head := none, tail := none, len := 0 },
        by simp [listJoin, ho_head, ho_tail, hl_tail], ?_, rfl, rfl,
        ⟨rfl, rfl, rfl, List.nodup_nil, by simp⟩, rfl, rfl,
        fun p => by rw [writeNext_mapval, writePrev_mapval], rfl, rfl, rfl⟩
      refine ⟨?_, ?_, ?_, ?_, ?_⟩
      · show seg (writeNext (writePrev σ.heap q2 (some tp)) tp (some q2)) none l.head
          ((ns1' ++ [tp]) ++ q2 :: rest2) none
        refine seg_append.mpr ⟨some q2, ?_, ?_⟩
        · have hc1 : seg (writePrev σ.heap q2 (some tp)) none l.head (ns1' ++ [tp])
              none :=
            seg_frame (fun p hp => writePrev_get_ne _ _ _ (hq2ns1 p hp)) hrep1.chain
          exact @seg_retarget _ _ _ _ _ _ (some q2) htpns1 hc1
        · rw [endp_concat]
          have hc2 := @seg_reanchor _ _ _ _ (some tp) _ _ hq2rest hoch
          exact seg_frame (fun p hp => writeNext_get_ne _ _ _ (htpns2 p hp)) hc2
      · show (some t2 : Option Ptr) = endp none ((ns1' ++ [tp]) ++ q2 :: rest2)
        rw [endp_append]
        exact ht2.symm
      · show l.len + o.len = ((ns1' ++ [tp]) ++ q2 :: rest2).length
        rw [hrep1.len_ok, hrep2.len_ok]
        simp only [List.length_append, List.length_cons, List.length_nil]
      · exact List.nodup_append.mpr ⟨hrep1.nodup, hrep2.nodup, hdisj⟩
      · intro p hp
        rcases List.mem_append.mp hp with h1 | h1
        · exact hrep1.bounded p h1
        · exact hrep2.bounded p h1

/-- `valsOf` only depends on the heap at the listed addresses. -/
theorem valsOf_congr {h h' : Heap} {ns : List Ptr}
    (hag : ∀ p ∈ ns, h' p = h p) : valsOf h' ns = valsOf h ns := by
  unfold valsOf
  exact List.map_congr_left (fun p hp => by unfold getNode; rw [hag p hp])

/-- What `listEmpty`'s loop does to a represented chain: it frees exactly the
chain's nodes and, when the release callback is installed, appends exactly
their values to the release trace, in order. -/
theorem emptyLoop_go {cs : List Ptr} :
    ∀ {h : Heap} {fr : List Val} {pr cur : Option Ptr} (freeSet : Bool),
      seg h pr cur cs none → cs.Nodup →
      ∃ h', emptyLoop freeSet h fr cur cs.length =
          (h', fr ++ (if freeSet then valsOf h cs else [])) ∧
        (∀ p ∈ cs, h' p = none) ∧ (∀ p, p ∉ cs → h' p = h p) := by
  induction cs with
  | nil =>
    intro h fr pr cur freeSet hs _
    exact ⟨h, by cases freeSet <;> simp [emptyLoop, valsOf], fun p hp => absurd hp
      (List.not_mem_nil p), fun p _ => rfl⟩
  | cons x rest ih =>
    intro h fr pr cur freeSet hs hnodup
    obtain ⟨hcur, nd, hnd, _, hrest⟩ := hs
    subst hcur
    have hxrest : x ∉ rest := (List.nodup_cons.mp hnodup).1
    have hrest2 : seg (hfree h x) (some x) nd.next rest none :=
      seg_frame (fun p hp => hfree_get_ne _ _ (fun he => hxrest (he ▸ hp))) hrest
    obtain ⟨h', hrun, hin, hout⟩ :=
      @ih _ (if freeSet then fr ++ [nd.value] else fr) _ _
        freeSet hrest2 (List.nodup_cons.mp hnodup).2
    refine ⟨h', ?_, ?_, ?_⟩
    · show emptyLoop freeSet h fr (some x) (rest.length + 1) = _
      have hg : getNode h x = nd := getNode_eq hnd
      simp only [emptyLoop, hg]
      rw [hrun]
      have hvals : valsOf (hfree h x) rest = valsOf h rest :=
        valsOf_congr (fun p hp => hfree_get_ne _ _ (fun he => hxrest (he ▸ hp)))
      cases freeSet with
      | false => simp
      | true =>
        have hvc : valsOf h (x :: rest) = nd.value :: valsOf h rest := by
          unfold valsOf
          rw [List.map_cons, hg]
        simp [hvals, hvc]
    · intro p hp
      rcases List.mem_cons.mp hp with h1 | h1
      · subst h1
        rw [hout p hxrest]
        simp [hfree]
      · exact hin p h1
    · intro p hp
      rw [hout p (fun hm => hp (List.mem_cons_of_mem _ hm))]
      exact hfree_get_ne _ _ (fun he => hp (he ▸ List.mem_cons_self x rest))

/-- `listRelease` on a represented list: its nodes are freed, its values are
released (in order) exactly when the callback is installed, and nothing else
changes. -/
theorem listRelease_spec {σ : State} {copy : list} {cs : List Ptr}
    (hrep : lstRep σ copy cs) :
    ∃ h', listRelease σ copy =
        { σ with heap := h',
                 freed := σ.freed ++ (if copy.free then valsOf σ.heap cs else []) } ∧
      (∀ p ∈ cs, h' p = none) ∧ (∀ p, p ∉ cs → h' p = σ.heap p) := by
  obtain ⟨h', hrun, hin, hout⟩ :=
    @emptyLoop_go _ _ σ.freed _ _ copy.free hrep.chain hrep.nodup
  refine ⟨h', ?_, hin, hout⟩
  unfold listRelease listEmpty
  rw [hrep.len_ok, hrun]

theorem valsOf_cons {h : Heap} {x : Ptr} {ns : List Ptr} :
    valsOf h (x :: ns) = (getNode h x).value :: valsOf h ns := rfl

theorem valsOf_append {h : Heap} {a b : List Ptr} :
    valsOf h (a ++ b) = valsOf h a ++ valsOf h b := List.map_append ..

theorem valsOf_congr_val {h h' : Heap} {ns : List Ptr}
    (hv : ∀ p ∈ ns, (getNode h' p).value = (getNode h p).value) :
    valsOf h' ns = valsOf h ns :=
  List.map_congr_left hv

theorem valsOf_take {h : Heap} {ns : List Ptr} {k : Nat} :
    valsOf h (ns.take k) = (valsOf h ns).take k := by
  unfold valsOf
  simp

/-- The values placed before `listDup`'s first failure are the processed
values of a prefix of the source values, in source order. -/
theorem placedVals_procVals {dup : Option (Val → Option Val)} :
    ∀ (oks : List Bool) (vs : List Val),
      ∃ k, procVals dup (vs.take k) = some (placedVals dup oks vs) := by
  intro oks vs
  induction vs generalizing oks with
  | nil => exact ⟨0, rfl⟩
  | cons v rest ih =>
    rcases hw : procVal dup v with _ | w
    · exact ⟨0, by simp [procVals, placedVals, hw]⟩
    · cases hok : oks.headD true with
      | false =>
        have hok2 : oks.head?.getD true = false := by simpa using hok
        exact ⟨0, by simp [procVals, placedVals, hw, hok2]⟩
      | true =>
        have hok2 : oks.head?.getD true = true := by simpa using hok
        obtain ⟨k, hk⟩ := ih oks.tail
        refine ⟨k + 1, ?_⟩
        have htake : (v :: rest).take (k + 1) = v :: rest.take k := rfl
        rw [htake]
        simp [procVals, placedVals, hw, hok2, hk]

/-- Main loop invariant of `listDup`: walking a suffix of the source while a
partial copy `copy` (represented by `cs`, all of whose nodes are at or above
`ctr0`, while the source lives strictly below `ctr0`) has been built.  The
loop either succeeds — appending exactly the processed values, in order, to
the copy, leaving the release trace alone — or fails — tearing the copy down:
every node of the copy (its pre-existing part `cs` and the fresh part `cs2`)
is freed, no other heap cell changes, and when the release callback is
installed the trace grows by exactly the values already placed.  Either way
the heap below `ctr0` (hence the source) is untouched, and which of the two
happens is decided by `dupSucceeds`. -/
theorem dupLoop_spec {suffix : List Ptr} :
    ∀ {σ : State} {copy : list} {cs : List Ptr} {oks : List Bool} {fuel : Nat}
      {ctr0 : Ptr} {pr cur : Option Ptr},
      seg σ.heap pr cur suffix none →
      lstRep σ copy cs →
      (∀ p ∈ suffix, p < ctr0) →
      (∀ p ∈ cs, ctr0 ≤ p) →
      ctr0 ≤ σ.ctr →
      suffix.length < fuel →
      ∃ σ' r, dupLoop σ copy ⟨cur, AL_START_HEAD⟩ oks fuel = some (σ', r) ∧
        (∀ p, p < ctr0 → σ'.heap p = σ.heap p) ∧
        ((dupSucceeds copy.dup oks (valsOf σ.heap suffix) = true ∧
          ∃ copy' cs' ws,
            r = some copy' ∧
            procVals copy.dup (valsOf σ.heap suffix) = some ws ∧
            lstRep σ' copy' (cs ++ cs') ∧
            (∀ p ∈ cs', ctr0 ≤ p) ∧
            valsOf σ'.heap (cs ++ cs') = valsOf σ.heap cs ++ ws ∧
            σ'.freed = σ.freed ∧
            copy'.dup = copy.dup ∧ copy'.free = copy.free ∧
            copy'.matchfn = copy.matchfn) ∨
         (dupSucceeds copy.dup oks (valsOf σ.heap suffix) = false ∧
          r = none ∧
          σ'.freed = σ.freed ++
            (if copy.free then
              valsOf σ.heap cs ++ placedVals copy.dup oks (valsOf σ.heap suffix)
             else []) ∧
          ∃ cs2, (∀ p ∈ cs2, ctr0 ≤ p) ∧
            (∀ p ∈ cs ++ cs2, σ'.heap p = none) ∧
            (∀ p, p ∉ cs ++ cs2 → σ'.heap p = σ.heap p))) := by
  induction suffix with
  | nil =>
    intro σ copy cs oks fuel ctr0 pr cur hseg hrepc hlow hhi hctr hfuel
    cases fuel with
    | zero => exact absurd hfuel (by simp)
    | succ f =>
      rw [seg_nil] at hseg
      subst hseg
      refine ⟨σ, some copy, by simp [dupLoop, listNext], fun p _ => rfl,
        Or.inl ⟨rfl, copy, [], [], rfl, rfl, by simpa using hrepc, by simp,
          by simp, rfl, rfl, rfl, rfl⟩⟩
  | cons x rest ih =>
    intro σ copy cs oks fuel ctr0 pr cur hseg hrepc hlow hhi hctr hfuel
    cases fuel with
    | zero => exact absurd hfuel (by simp)
    | succ f =>
      obtain ⟨hcur, nd, hnd, hndprev, hrest⟩ := hseg
      subst hcur
      have hgx : getNode σ.heap x = nd := getNode_eq hnd
      have hxmem : x ∈ x :: rest := List.mem_cons_self x rest
      have hrlow : ∀ p ∈ rest, p < ctr0 := fun p hp => hlow p (List.mem_cons_of_mem _ hp)
      have hfuel' : rest.length < f := by
        simp only [List.length_cons] at hfuel
        omega
      -- the shared continuation: a value was produced, try to append it
      have hcont : ∀ w : Val, procVal copy.dup nd.value = some w →
          dupLoop σ copy ⟨some x, AL_START_HEAD⟩ oks (f + 1) =
            (match listAddNodeTail σ copy w (oks.headD true) with
             | none => some (listRelease σ copy, none)
             | some r => dupLoop r.1 r.2 ⟨nd.next, AL_START_HEAD⟩ oks.tail f) →
          ∃ σ' r, dupLoop σ copy ⟨some x, AL_START_HEAD⟩ oks (f + 1) = some (σ', r) ∧
            (∀ p, p < ctr0 → σ'.heap p = σ.heap p) ∧
            ((dupSucceeds copy.dup oks (valsOf σ.heap (x :: rest)) = true ∧
              ∃ copy' cs' ws,
                r = some copy' ∧
                procVals copy.dup (valsOf σ.heap (x :: rest)) = some ws ∧
                lstRep σ' copy' (cs ++ cs') ∧
                (∀ p ∈ cs', ctr0 ≤ p) ∧
                valsOf σ'.heap (cs ++ cs') = valsOf σ.heap cs ++ ws ∧
                σ'.freed = σ.freed ∧
                copy'.dup = copy.dup ∧ copy'.free = copy.free ∧
                copy'.matchfn = copy.matchfn) ∨
             (dupSucceeds copy.dup oks (valsOf σ.heap (x :: rest)) = false ∧
              r = none ∧
              σ'.freed = σ.freed ++
                (if copy.free then
                  valsOf σ.heap cs ++
                    placedVals copy.dup oks (valsOf σ.heap (x :: rest))
                 else []) ∧
              ∃ cs2, (∀ p ∈ cs2, ctr0 ≤ p) ∧
                (∀ p ∈ cs ++ cs2, σ'.heap p = none) ∧
                (∀ p, p ∉ cs ++ cs2 → σ'.heap p = σ.heap p))) := by
        intro w hw hred
        cases hok : oks.headD true with
        | false =>
          rw [hok] at hred
          rw [show listAddNodeTail σ copy w false = none from rfl] at hred
          obtain ⟨h', hrel, hin, hout⟩ := listRelease_spec hrepc
          rw [hrel] at hred
          refine ⟨_, none, hred, ?_, Or.inr ⟨?_, rfl, ?_, [], by simp, ?_, ?_⟩⟩
          · intro p hplow
            exact hout p (fun hm => absurd (hhi p hm) (Nat.not_le.mpr hplow))
          · rw [valsOf_cons, hgx]
            cases oks with
            | nil => simp at hok
            | cons b bs =>
              simp at hok
              simp [dupSucceeds, hw, hok]
          · have hok2 : oks.head?.getD true = false := by simpa using hok
            show σ.freed ++ (if copy.free then valsOf σ.heap cs else []) =
              σ.freed ++ (if copy.free then
                valsOf σ.heap cs ++
                  placedVals copy.dup oks (valsOf σ.heap (x :: rest))
               else [])
            rw [valsOf_cons, hgx]
            have hpl : placedVals copy.dup oks (nd.value :: valsOf σ.heap rest)
                = [] := by
              simp [placedVals, hw, hok2]
            rw [hpl]
            cases copy.free <;> simp
          · intro p hp
            exact hin p (by simpa using hp)
          · intro p hp
            exact hout p (by simpa using hp)
        | true =>
          rw [hok] at hred
          have hok2 : oks.head?.getD true = true := by simpa using hok
          obtain ⟨σ2, copy2, haddrun, hrep2, htail2, hlen2, hval2, hctr2, hfreed2,
            hvals2, hframe2, hdup2, hfree2, hmatch2⟩ := addTail_rep (v := w) hrepc
          rw [haddrun] at hred
          have hagree : ∀ p, p < ctr0 → σ2.heap p = σ.heap p := fun p hplow =>
            hframe2 p (Nat.ne_of_lt (lt_of_lt_of_le hplow hctr))
              (fun hm => absurd (hhi p hm) (Nat.not_le.mpr hplow))
          have hrest2 : seg σ2.heap (some x) nd.next rest none :=
            seg_frame (fun p hp => hagree p (hrlow p hp)) hrest
          have hhi2 : ∀ p ∈ cs ++ [σ.ctr], ctr0 ≤ p := by
            intro p hp
            rcases List.mem_append.mp hp with h1 | h1
            · exact hhi p h1
            · rw [List.mem_singleton.mp h1]; exact hctr
          have hctr2' : ctr0 ≤ σ2.ctr := by
            rw [hctr2]; exact Nat.le_succ_of_le hctr
          obtain ⟨σ', r, hrunIH, hlowIH, hbranch⟩ :=
            @ih _ _ _ oks.tail _ _ _ _ hrest2 hrep2 hrlow hhi2 hctr2' hfuel'
          have hvrest : valsOf σ2.heap rest = valsOf σ.heap rest :=
            valsOf_congr (fun p hp => hagree p (hrlow p hp))
          have hvcs : valsOf σ2.heap cs = valsOf σ.heap cs := valsOf_congr_val hvals2
          have hvcs2 : valsOf σ2.heap (cs ++ [σ.ctr]) = valsOf σ.heap cs ++ [w] := by
            rw [valsOf_append, hvcs]
            simp [valsOf, hval2]
          refine ⟨σ', r, hred.trans hrunIH, ?_, ?_⟩
          · intro p hplow
            rw [hlowIH p hplow, hagree p hplow]
          · rcases hbranch with ⟨hsucc, copy', cs', ws, hr, hpv, hrep', hhi'', hvals',
              hfreed', hd', hf', hm'⟩ |
              ⟨hfail, hrnone, hfreedIH, cs2', hcs2hi, hcs2none, hcs2frame⟩
            · refine Or.inl ⟨?_, copy', σ.ctr :: cs', w :: ws, hr, ?_, ?_, ?_, ?_,
                hfreed'.trans hfreed2, hd'.trans hdup2, hf'.trans hfree2,
                hm'.trans hmatch2⟩
              · have h1 : dupSucceeds copy.dup oks.tail (valsOf σ.heap rest) = true := by
                  rw [← hvrest, ← hdup2]; exact hsucc
                rw [valsOf_cons, hgx]
                simp [dupSucceeds, hw, hok2, h1]
              · have h1 : procVals copy.dup (valsOf σ.heap rest) = some ws := by
                  rw [← hvrest, ← hdup2]; exact hpv
                rw [valsOf_cons, hgx]
                simp [procVals, hw, h1]
              · have : cs ++ σ.ctr :: cs' = (cs ++ [σ.ctr]) ++ cs' := by simp
                rw [this]
                exact hrep'
              · intro p hp
                rcases List.mem_cons.mp hp with h1 | h1
                · rw [h1]; exact hctr
                · exact hhi'' p h1
              · have hsplit : cs ++ σ.ctr :: cs' = (cs ++ [σ.ctr]) ++ cs' := by simp
                rw [hsplit, hvals', hvcs2]
                simp
            · refine Or.inr ⟨?_, hrnone, ?_, σ.ctr :: cs2', ?_, ?_, ?_⟩
              · have h1 : dupSucceeds copy.dup oks.tail (valsOf σ.heap rest) = false := by
                  rw [← hvrest, ← hdup2]; exact hfail
                rw [valsOf_cons, hgx]
                simp [dupSucceeds, hw, hok2, h1]
              · rw [hfreedIH, hfree2, hdup2, hfreed2, hvcs2, hvrest,
                  valsOf_cons, hgx]
                have hpl : placedVals copy.dup oks (nd.value :: valsOf σ.heap rest)
                    = w :: placedVals copy.dup oks.tail (valsOf σ.heap rest) := by
                  simp [placedVals, hw, hok2]
                rw [hpl]
                cases copy.free <;> simp
              · intro p hp
                rcases List.mem_cons.mp hp with h1 | h1
                · rw [h1]; exact hctr
                · exact hcs2hi p h1
              · intro p hp
                apply hcs2none
                simpa using hp
              · intro p hp
                have hp2 : p ∉ (cs ++ [σ.ctr]) ++ cs2' := by simpa using hp
                have hpc : p ∉ cs := fun hm => hp (List.mem_append_left _ hm)
                have hpne : p ≠ σ.ctr := fun he =>
                  hp (List.mem_append_right _ (by rw [he]; exact List.mem_cons_self _ _))
                rw [hcs2frame p hp2]
                exact hframe2 p hpne hpc
      rcases Option.eq_none_or_eq_some copy.dup with hdup | ⟨d, hdup⟩
      · refine hcont nd.value (by simp [procVal, hdup]) ?_
        simp [dupLoop, listNext, hgx, hdup, AL_START_HEAD]
      · rcases hd : d nd.value with _ | w
        · -- the duplicate callback failed: tear the partial copy down
          obtain ⟨h', hrel, hin, hout⟩ := listRelease_spec hrepc
          refine ⟨listRelease σ copy, none, ?_, ?_,
            Or.inr ⟨?_, rfl, ?_, [], by simp, ?_, ?_⟩⟩
          · simp [dupLoop, listNext, hgx, hdup, hd, AL_START_HEAD]
          · rw [hrel]
            intro p hplow
            exact hout p (fun hm => absurd (hhi p hm) (Nat.not_le.mpr hplow))
          · simp [valsOf_cons, dupSucceeds, procVal, hdup, hd, hgx]
          · rw [hrel]
            show σ.freed ++ (if copy.free then valsOf σ.heap cs else []) =
              σ.freed ++ (if copy.free then
                valsOf σ.heap cs ++
                  placedVals copy.dup oks (valsOf σ.heap (x :: rest))
               else [])
            rw [valsOf_cons, hgx]
            have hpl : placedVals copy.dup oks (nd.value :: valsOf σ.heap rest)
                = [] := by
              simp [placedVals, procVal, hdup, hd]
            rw [hpl]
            cases copy.free <;> simp
          · intro p hp
            rw [hrel]
            exact hin p (by simpa using hp)
          · intro p hp
            rw [hrel]
            exact hout p (by simpa using hp)
        · refine hcont w (by simp [procVal, hdup, hd]) ?_
          simp [dupLoop, listNext, hgx, hdup, hd, AL_START_HEAD]

/-- `listSearchKey`'s loop terminates with a defined answer whenever its fuel
exceeds the chain length. -/
theorem searchLoop_total {suffix : List Ptr} :
    ∀ {σ : State} {l : list} {key : Val} {pr cur : Option Ptr} {fuel : Nat},
      seg σ.heap pr cur suffix none → suffix.length < fuel →
      ∃ r, searchLoop σ l key ⟨cur, AL_START_HEAD⟩ fuel = some r := by
  induction suffix with
  | nil =>
    intro σ l key pr cur fuel hseg hfuel
    rw [seg_nil] at hseg
    subst hseg
    cases fuel with
    | zero => exact absurd hfuel (by simp)
    | succ f => exact ⟨none, by simp [searchLoop, listNext]⟩
  | cons x rest ih =>
    intro σ l key pr cur fuel hseg hfuel
    obtain ⟨hcur, nd, hnd, _, hrest⟩ := hseg
    subst hcur
    cases fuel with
    | zero => exact absurd hfuel (by simp)
    | succ f =>
      have hgx : getNode σ.heap x = nd := getNode_eq hnd
      have hfuel' : rest.length < f := by
        simp only [List.length_cons] at hfuel
        omega
      obtain ⟨r, hr⟩ := @ih _ l key _ _ _ hrest hfuel'
      have hr2 : searchLoop σ l key { next := nd.next, direction := 0 } f = some r := by
        simpa [AL_START_HEAD] using hr
      rcases Option.eq_none_or_eq_some l.matchfn with hm | ⟨m, hm⟩
      · by_cases hkey : key = nd.value
        · exact ⟨some x, by simp [searchLoop, listNext, hgx, hm, hkey, AL_START_HEAD]⟩
        · exact ⟨r, by simp [searchLoop, listNext, hgx, hm, hkey, AL_START_HEAD, hr2]⟩
      · by_cases hmk : m nd.value key = true
        · exact ⟨some x, by simp [searchLoop, listNext, hgx, hm, hmk, AL_START_HEAD]⟩
        · exact ⟨r, by simp [searchLoop, listNext, hgx, hm, hmk, AL_START_HEAD, hr2]⟩

/-- Effect of `listEmpty` on a represented list: reset to a valid empty list,
releasing every value exactly when the callback is installed. -/
theorem listEmpty_rep {σ : State} {l : list} {ns : List Ptr}
    (hrep : lstRep σ l ns) :
    ∃ σ' l', listEmpty σ l = (σ', l') ∧ lstRep σ' l' [] ∧
      σ'.freed = σ.freed ++ (if l.free then valsOf σ.heap ns else []) ∧
      σ'.ctr = σ.ctr ∧
      l'.dup = l.dup ∧ l'.free = l.free ∧ l'.matchfn = l.matchfn := by
  obtain ⟨h', hrun, hin, hout⟩ :=
    @emptyLoop_go _ _ σ.freed _ _ l.free hrep.chain hrep.nodup
  refine ⟨{ σ with
              heap := h',
              freed := σ.freed ++ (if l.free then valsOf σ.heap ns else []) },
          { l with head := none, tail := none, len := 0 },
          by unfold listEmpty; rw [hrep.len_ok, hrun],
          ⟨rfl, rfl, rfl, List.nodup_nil, by simp⟩, rfl, rfl, rfl, rfl, rfl⟩

/-- Successful value processing preserves the number of values. -/
theorem procVals_length {dup : Option (Val → Option Val)} {vs : List Val} :
    ∀ {ws : List Val}, procVals dup vs = some ws → ws.length = vs.length := by
  induction vs with
  | nil =>
    intro ws h
    simp only [procVals] at h
    rw [← Option.some_injective _ h]
  | cons v rest ih =>
    intro ws h
    simp only [procVals] at h
    rcases hpv : procVal dup v with _ | w
    · rw [hpv] at h; cases h
    · rw [hpv] at h
      rcases hrec : procVals dup rest with _ | ws'
      · rw [hrec] at h; cases h
      · rw [hrec] at h
        rw [← Option.some_injective _ h]
        simp [ih hrec]

/-- All the structural invariants that follow from representation: length
agrees with both traversals, which are mutually reversed; head/tail nullity
agrees with length zero; adjacent links invert each other; the boundary links
are null. -/
theorem lstRep_invariants {σ : State} {l : list} {ns : List Ptr}
    (hrep : lstRep σ l ns) :
    (∀ k, l.len ≤ k → fwdTrav σ.heap l.head k = ns) ∧
    (∀ k, l.len ≤ k → bwdTrav σ.heap l.tail k = ns.reverse) ∧
    l.len = ns.length ∧
    ((l.head = none ↔ l.len = 0) ∧ (l.tail = none ↔ l.len = 0)) ∧
    (∀ p ∈ ns, ∀ nd, σ.heap p = some nd →
      (∀ q, nd.next = some q → ∃ qnd, σ.heap q = some qnd ∧ qnd.prev = some p) ∧
      (∀ q, nd.prev = some q → ∃ qnd, σ.heap q = some qnd ∧ qnd.next = some p)) ∧
    (∀ hp, l.head = some hp → (getNode σ.heap hp).prev = none) ∧
    (∀ tp, l.tail = some tp → (getNode σ.heap tp).next = none) := by
  have hlen := hrep.len_ok
  refine ⟨?_, ?_, hlen, ⟨?_, ?_⟩, ?_, ?_, ?_⟩
  · intro k hk
    exact seg_fwdTrav hrep.chain k (hlen ▸ hk)
  · intro k hk
    have hrev := seg_revseg hrep.chain
    rw [← hrep.tail_ok] at hrev
    exact revseg_bwdTrav hrev k (by simpa using (hlen ▸ hk))
  · cases hns : ns with
    | nil =>
      have hh : l.head = none := by
        have := hrep.chain
        rw [hns] at this
        exact this
      simp [hh, hlen, hns]
    | cons p rest =>
      have hh : l.head = some p := by
        have := hrep.chain
        rw [hns] at this
        exact this.1
      simp [hh, hlen, hns]
  · cases hns : ns with
    | nil =>
      have hh : l.tail = none := by rw [hrep.tail_ok, hns]; rfl
      simp [hh, hlen, hns]
    | cons p rest =>
      obtain ⟨t, ht⟩ : ∃ y, endp (some p) rest = some y := endp_of_some
      have hh : l.tail = some t := by rw [hrep.tail_ok, hns]; exact ht
      simp [hh, hlen, hns]
  · intro p hp nd hnd
    refine ⟨fun q hq => seg_inv_next hrep.chain p hp nd hnd q hq,
            fun q hq => seg_inv_prev hrep.chain ?_ p hp nd hnd q hq⟩
    intro r hr
    cases hr
  · intro hp hhp
    cases hns : ns with
    | nil =>
      have : l.head = none := by
        have := hrep.chain
        rw [hns] at this
        exact this
      rw [this] at hhp
      cases hhp
    | cons p rest =>
      obtain ⟨hcur, nd, hnd, hprev, _⟩ := hns ▸ hrep.chain
      rw [hcur] at hhp
      rw [← Option.some_injective _ hhp, getNode_eq hnd, hprev]
  · intro tp htp
    rcases List.eq_nil_or_concat ns with hns | ⟨ns', t, hns⟩
    · have : l.tail = none := by rw [hrep.tail_ok, hns]; rfl
      rw [this] at htp
      cases htp
    · rw [List.concat_eq_append] at hns
      have ht : l.tail = some t := by rw [hrep.tail_ok, hns, endp_concat]
      rw [ht] at htp
      obtain ⟨mid, _, hlast⟩ := seg_append.mp (hns ▸ hrep.chain)
      obtain ⟨hmid, tnd, htnd, _, htnext⟩ := hlast
      rw [seg_nil] at htnext
      rw [← Option.some_injective _ htp, getNode_eq htnd, htnext]

/-- Every operation preserves representability. -/
theorem Step_rep {σ : State} {l : list} {s' : State × list} {ns : List Ptr}
    (hrep : lstRep σ l ns) (hstep : Step (σ, l) s') :
    ∃ ns', lstRep s'.1 s'.2 ns' := by
  cases hstep with
  | addHead v hE =>
    obtain ⟨σ2, l2, heq, hrep2, _⟩ := addHead_rep (v := v) hrep
    have h2 : (σ2, l2) = _ := Option.some_injective _ (heq.symm.trans hE)
    rw [Prod.mk.injEq] at h2
    obtain ⟨rfl, rfl⟩ := h2
    exact ⟨_, hrep2⟩
  | addTail v hE =>
    obtain ⟨σ2, l2, heq, hrep2, _⟩ := addTail_rep (v := v) hrep
    have h2 : (σ2, l2) = _ := Option.some_injective _ (heq.symm.trans hE)
    rw [Prod.mk.injEq] at h2
    obtain ⟨rfl, rfl⟩ := h2
    exact ⟨_, hrep2⟩
  | insert anchor v after hmem hE =>
    rw [lstRep_invariants hrep |>.1 l.len (le_refl _)] at hmem
    obtain ⟨pre, post, hns⟩ := List.append_of_mem hmem
    subst hns
    cases after with
    | true =>
      obtain ⟨σ2, l2, heq, hrep2, _⟩ := insertNode_after_rep (v := v) hrep
      have h2 : (σ2, l2) = _ := Option.some_injective _ (heq.symm.trans hE)
      rw [Prod.mk.injEq] at h2
      obtain ⟨rfl, rfl⟩ := h2
      exact ⟨_, hrep2⟩
    | false =>
      obtain ⟨σ2, l2, heq, hrep2, _⟩ := insertNode_before_rep (v := v) hrep
      have h2 : (σ2, l2) = _ := Option.some_injective _ (heq.symm.trans hE)
      rw [Prod.mk.injEq] at h2
      obtain ⟨rfl, rfl⟩ := h2
      exact ⟨_, hrep2⟩
  | delete node hmem hE =>
    rw [lstRep_invariants hrep |>.1 l.len (le_refl _)] at hmem
    obtain ⟨pre, post, hns⟩ := List.append_of_mem hmem
    subst hns
    obtain ⟨σ2, l2, heq, hrep2, _⟩ := delNode_rep hrep
    have h2 : (σ2, l2) = _ := heq.symm.trans hE
    rw [Prod.mk.injEq] at h2
    obtain ⟨rfl, rfl⟩ := h2
    exact ⟨_, hrep2⟩
  | rotate hE =>
    by_cases hlen : l.len ≤ 1
    · have h2 : (σ, l) = _ := (rotate_noop hlen).symm.trans hE
      rw [Prod.mk.injEq] at h2
      obtain ⟨rfl, rfl⟩ := h2
      exact ⟨ns, hrep⟩
    · have hge : 2 ≤ ns.length := by
        rw [← hrep.len_ok]; omega
      cases hns0 : ns with
      | nil => rw [hns0] at hge; simp at hge
      | cons q rest =>
        rcases List.eq_nil_or_concat rest with hr0 | ⟨mid, t, hr0⟩
        · rw [hns0, hr0] at hge; simp at hge
        · rw [List.concat_eq_append] at hr0
          rw [hns0, hr0] at hrep
          obtain ⟨σ2, l2, heq, hrep2, _⟩ := rotate_rep hrep
          have h2 : (σ2, l2) = _ := heq.symm.trans hE
          rw [Prod.mk.injEq] at h2
          obtain ⟨rfl, rfl⟩ := h2
          exact ⟨_, hrep2⟩
  | emptyOp hE =>
    obtain ⟨σ2, l2, heq, hrep2, _⟩ := listEmpty_rep hrep
    have h2 : (σ2, l2) = _ := heq.symm.trans hE
    rw [Prod.mk.injEq] at h2
    obtain ⟨rfl, rfl⟩ := h2
    exact ⟨_, hrep2⟩
  | joinDest ns2 hrep2 hdisj hE =>
    rw [lstRep_invariants hrep |>.1 l.len (le_refl _)] at hdisj
    obtain ⟨σ2, l2, o2, heq, hrepj, _⟩ := join_rep hrep hrep2 hdisj
    have h2 : (σ2, l2, o2) = _ := heq.symm.trans hE
    rw [Prod.mk.injEq, Prod.mk.injEq] at h2
    obtain ⟨rfl, rfl, rfl⟩ := h2
    exact ⟨_, hrepj⟩
  | joinSrc nsd hrepd hdisj hE =>
    rw [lstRep_invariants hrep |>.1 l.len (le_refl _)] at hdisj
    obtain ⟨σ2, l2, o2, heq, _, _, hoeq, hoempty, _⟩ := join_rep hrepd hrep hdisj
    have h2 : (σ2, l2, o2) = _ := heq.symm.trans hE
    rw [Prod.mk.injEq, Prod.mk.injEq] at h2
    obtain ⟨rfl, rfl, rfl⟩ := h2
    exact ⟨[], hoeq ▸ hoempty⟩

/-- Every reachable state is representable. -/
theorem Reachable_rep : ∀ {s : State × list}, Reachable s →
    ∃ ns, lstRep s.1 s.2 ns := by
  intro s h
  induction h with
  | create σ hc =>
    have hl : _ = _ := Option.some_injective _ hc
    refine ⟨[], ?_, ?_, ?_, List.nodup_nil, by simp⟩ <;> rw [← hl] <;> rfl
  | step _ hstep ih =>
    rename_i s1 s2
    obtain ⟨ns, hrep⟩ := ih
    obtain ⟨σ1, l1⟩ := s1
    exact Step_rep hrep hstep

/-!
## Claim theorems
-/

/-- C1: for every list reachable by any sequence of the operations create,
addHead, addTail, insert, delete, rotate, join, and empty, the structural
invariants hold after each operation: the stored length equals the number of
nodes reached by following `next`-links from the head and equals the number
reached by following `prev`-links from the tail, with the two traversals
visiting the same nodes in mutually reverse order; head is null iff tail is
null iff length is 0; for every node with a non-null `next`, `next.prev`
points back at it (and symmetrically for `prev`); and `head.prev` and
`tail.next` are null whenever head and tail exist. -/
theorem C1_reachable_invariants {σ : State} {l : list}
    (h : Reachable (σ, l)) :
    ∃ ns, lstRep σ l ns ∧
      (∀ k, l.len ≤ k → fwdTrav σ.heap l.head k = ns) ∧
      (∀ k, l.len ≤ k → bwdTrav σ.heap l.tail k = ns.reverse) ∧
      l.len = ns.length ∧
      ((l.head = none ↔ l.tail = none) ∧ (l.head = none ↔ l.len = 0)) ∧
      (∀ p ∈ ns, ∀ nd, σ.heap p = some nd →
        (∀ q, nd.next = some q → ∃ qnd, σ.heap q = some qnd ∧ qnd.prev = some p) ∧
        (∀ q, nd.prev = some q → ∃ qnd, σ.heap q = some qnd ∧ qnd.next = some p)) ∧
      (∀ hp, l.head = some hp → (getNode σ.heap hp).prev = none) ∧
      (∀ tp, l.tail = some tp → (getNode σ.heap tp).next = none) := by
  obtain ⟨ns, hrep⟩ := Reachable_rep h
  obtain ⟨h1, h2, h3, ⟨h4, h5⟩, h6, h7, h8⟩ := lstRep_invariants hrep
  exact ⟨ns, hrep, h1, h2, h3, ⟨h4.trans h5.symm, h4⟩, h6, h7, h8⟩

/-- Witness for C1, at the concrete state produced by a successful
`listCreate` in the empty ambient state. -/
theorem C1_reachable_invariants_witness :
    Reachable ({ heap := fun _ => none, ctr := 0, freed := [] },
      { head := none, tail := none, len := 0,
        dup := none, free := false, matchfn := none }) ∧
    (∃ ns, lstRep { heap := fun _ => none, ctr := 0, freed := [] }
        { head := none, tail := none, len := 0,
          dup := none, free := false, matchfn := none } ns ∧
      (∀ k, 0 ≤ k → fwdTrav (fun _ => none) none k = ns) ∧
      (∀ k, 0 ≤ k → bwdTrav (fun _ => none) none k = ns.reverse) ∧
      0 = ns.length ∧
      (((none : Option Ptr) = none ↔ (none : Option Ptr) = none) ∧
        ((none : Option Ptr) = none ↔ 0 = 0)) ∧
      (∀ p ∈ ns, ∀ nd : listNode, (fun _ => none : Heap) p = some nd →
        (∀ q, nd.next = some q →
          ∃ qnd, (fun _ => none : Heap) q = some qnd ∧ qnd.prev = some p) ∧
        (∀ q, nd.prev = some q →
          ∃ qnd, (fun _ => none : Heap) q = some qnd ∧ qnd.next = some p)) ∧
      (∀ hp, (none : Option Ptr) = some hp →
        (getNode (fun _ => none) hp).prev = none) ∧
      (∀ tp, (none : Option Ptr) = some tp →
        (getNode (fun _ => none) tp).next = none)) :=
  have hre : Reachable ({ heap := fun _ => none, ctr := 0, freed := [] },
      { head := none, tail := none, len := 0,
        dup := none, free := false, matchfn := none }) :=
    Reachable.create _ rfl
  ⟨hre, C1_reachable_invariants hre⟩

/-- C2: on success, `listAddNodeHead` links exactly one fresh node holding the
value as the new head (also becoming the tail when the list was empty),
`listAddNodeTail` symmetrically links it as the new tail, and `listInsertNode`
links it immediately after the anchor when the flag is set (becoming the tail
when the anchor was the tail) and immediately before it otherwise (becoming
the head when the anchor was the head); each success grows `len` by exactly
one and returns the list (modelled by `some` of the updated state, the C
function returning the `list` pointer it was given); when node allocation
fails each operation returns `NULL` (`none`) and, the embedding being pure and
returning before any write, the list is left unmodified. -/
theorem C2_insertion_ops {σ : State} {l : list} {ns : List Ptr} (v : Val)
    (hrep : lstRep σ l ns) :
    (∃ σ' l', listAddNodeHead σ l v true = some (σ', l') ∧
      lstRep σ' l' (σ.ctr :: ns) ∧ l'.head = some σ.ctr ∧
      (getNode σ'.heap σ.ctr).value = v ∧ l'.len = l.len + 1 ∧
      (l.len = 0 → l'.tail = some σ.ctr) ∧
      (∀ p ∈ ns, (getNode σ'.heap p).value = (getNode σ.heap p).value)) ∧
    (∃ σ' l', listAddNodeTail σ l v true = some (σ', l') ∧
      lstRep σ' l' (ns ++ [σ.ctr]) ∧ l'.tail = some σ.ctr ∧
      (getNode σ'.heap σ.ctr).value = v ∧ l'.len = l.len + 1 ∧
      (∀ p ∈ ns, (getNode σ'.heap p).value = (getNode σ.heap p).value)) ∧
    (∀ pre post anchor, ns = pre ++ anchor :: post →
      (∃ σ' l', listInsertNode σ l anchor v true true = some (σ', l') ∧
        lstRep σ' l' (pre ++ anchor :: σ.ctr :: post) ∧
        (getNode σ'.heap σ.ctr).value = v ∧ l'.len = l.len + 1 ∧
        (post = [] → l'.tail = some σ.ctr)) ∧
      (∃ σ' l', listInsertNode σ l anchor v false true = some (σ', l') ∧
        lstRep σ' l' (pre ++ σ.ctr :: anchor :: post) ∧
        (getNode σ'.heap σ.ctr).value = v ∧ l'.len = l.len + 1 ∧
        (pre = [] → l'.head = some σ.ctr))) ∧
    listAddNodeHead σ l v false = none ∧
    listAddNodeTail σ l v false = none ∧
    (∀ anchor after, listInsertNode σ l anchor v after false = none) := by
  refine ⟨?_, ?_, ?_, rfl, rfl, fun anchor after => rfl⟩
  · obtain ⟨σ', l', heq, hrep', hhead, hlen, hval, _, _, hvals, _⟩ :=
      addHead_rep (v := v) hrep
    refine ⟨σ', l', heq, hrep', hhead, hval, hlen, ?_, hvals⟩
    intro h0
    have hns : ns = [] := List.eq_nil_of_length_eq_zero (hrep.len_ok.symm.trans h0)
    rw [hrep'.tail_ok, hns]
    rfl
  · obtain ⟨σ', l', heq, hrep', htail, hlen, hval, _, _, hvals, _⟩ :=
      addTail_rep (v := v) hrep
    exact ⟨σ', l', heq, hrep', htail, hval, hlen, hvals⟩
  · intro pre post anchor hns
    subst hns
    constructor
    · obtain ⟨σ', l', heq, hrep', hlen, hval, _⟩ :=
        insertNode_after_rep (v := v) hrep
      refine ⟨σ', l', heq, hrep', hval, hlen, ?_⟩
      intro hpost
      subst hpost
      rw [hrep'.tail_ok]
      have : pre ++ anchor :: σ.ctr :: ([] : List Ptr) =
          (pre ++ [anchor]) ++ [σ.ctr] := by simp
      rw [this, endp_concat]
    · obtain ⟨σ', l', heq, hrep', hlen, hval, _⟩ :=
        insertNode_before_rep (v := v) hrep
      refine ⟨σ', l', heq, hrep', hval, hlen, ?_⟩
      intro hpre
      subst hpre
      exact hrep'.chain.1

/-- C4: deleting a node of a represented list removes exactly that node,
reconnecting its neighbours (head/tail updated at the boundaries) while all
remaining nodes keep their relative order and values; the release callback is
invoked on the removed value exactly once when installed and never otherwise;
`len` drops by exactly one. -/
theorem C4_delete {σ : State} {l : list} {pre post : List Ptr} {node : Ptr}
    (hrep : lstRep σ l (pre ++ node :: post)) :
    ∃ σ' l', listDelNode σ l node = (σ', l') ∧
      lstRep σ' l' (pre ++ post) ∧
      l'.len = l.len - 1 ∧
      σ'.freed = (if l.free then σ.freed ++ [(getNode σ.heap node).value]
                  else σ.freed) ∧
      σ'.heap node = none ∧
      (∀ p ∈ pre ++ post, (getNode σ'.heap p).value = (getNode σ.heap p).value) ∧
      l'.free = l.free := by
  obtain ⟨σ', l', heq, hrep', hlen, hfreed, _, hnode, hvals, _, hfr, _⟩ :=
    delNode_rep hrep
  exact ⟨σ', l', heq, hrep', hlen, hfreed, hnode, hvals, hfr⟩

/-- C8: `listRotate` is a no-op on lists of length 0 or 1; with at least two
nodes it relocates exactly the former tail to the head position, preserves
everyone else's relative order, and neither allocates nor frees any node, so
the node set and all values are unchanged. -/
theorem C8_rotate {σ : State} {l : list} {mid : List Ptr} {q t : Ptr}
    (hrep : lstRep σ l (q :: mid ++ [t])) :
    (∀ (σ2 : State) (l2 : list), l2.len ≤ 1 → listRotate σ2 l2 = (σ2, l2)) ∧
    ∃ σ' l', listRotate σ l = (σ', l') ∧
      lstRep σ' l' (t :: q :: mid) ∧ l'.head = some t ∧ l'.len = l.len ∧
      σ'.ctr = σ.ctr ∧ σ'.freed = σ.freed ∧
      (∀ p, (σ'.heap p).map listNode.value = (σ.heap p).map listNode.value) := by
  refine ⟨fun σ2 l2 h2 => rotate_noop h2, ?_⟩
  obtain ⟨σ', l', heq, hrep', hhead, hctr, hfreed, hmap, hlen, _⟩ := rotate_rep hrep
  exact ⟨σ', l', heq, hrep', hhead, hlen, hctr, hfreed, hmap⟩

/-- C9: `listIndex` at 0 returns the head and at −1 the tail; a non-negative
argument i returns the i-th node from the head (`none` once i reaches the
length), and −(i+1) returns the i-th node from the tail (`none` once i reaches
the length); in particular `len` and `−len−1` are out of range. -/
theorem C9_index {σ : State} {l : list} {ns : List Ptr}
    (hrep : lstRep σ l ns) :
    listIndex σ l 0 = l.head ∧
    listIndex σ l (-1) = l.tail ∧
    (∀ i : Nat, listIndex σ l (i : Int) = ns[i]?) ∧
    (∀ i : Nat, listIndex σ l (-(i : Int) - 1) = ns.reverse[i]?) ∧
    listIndex σ l (l.len : Int) = none ∧
    listIndex σ l (-(l.len : Int) - 1) = none := by
  have hrev : revseg σ.heap none l.tail ns.reverse none := by
    have h1 := seg_revseg hrep.chain
    rw [← hrep.tail_ok] at h1
    exact h1
  have hfwd : ∀ i : Nat, listIndex σ l (i : Int) = ns[i]? := by
    intro i
    have hnn : ¬((i : Int) < 0) := by omega
    unfold listIndex
    rw [if_neg hnn]
    have htn : (i : Int).toNat = i := Int.toNat_ofNat i
    rw [htn]
    exact seg_walkNext hrep.chain i
  have hbwd : ∀ i : Nat, listIndex σ l (-(i : Int) - 1) = ns.reverse[i]? := by
    intro i
    have hneg : (-(i : Int) - 1) < 0 := by omega
    unfold listIndex
    rw [if_pos hneg]
    have htn : (-(-(i : Int) - 1) - 1).toNat = i := by omega
    rw [htn]
    exact revseg_walkPrev hrev i
  refine ⟨?_, ?_, hfwd, hbwd, ?_, ?_⟩
  · have h0 := hfwd 0
    cases hns : ns with
    | nil =>
      have hh : l.head = none := by
        have := hrep.chain; rw [hns] at this; exact this
      rw [hh]
      rw [hns] at h0
      simpa using h0
    | cons p rest =>
      have hh : l.head = some p := by
        have := hrep.chain; rw [hns] at this; exact this.1
      rw [hh]
      rw [hns] at h0
      simpa using h0
  · have h0 := hbwd 0
    simp only [Nat.cast_zero, neg_zero, zero_sub] at h0
    rw [h0]
    rcases List.eq_nil_or_concat ns with hns | ⟨ns', t, hns⟩
    · have ht : l.tail = none := by rw [hrep.tail_ok, hns]; rfl
      rw [ht, hns]
      rfl
    · rw [List.concat_eq_append] at hns
      have ht : l.tail = some t := by rw [hrep.tail_ok, hns, endp_concat]
      rw [ht, hns]
      simp
  · rw [hrep.len_ok]
    rw [hfwd ns.length]
    exact List.getElem?_eq_none (le_refl _)
  · rw [hrep.len_ok]
    rw [hbwd ns.length]
    exact List.getElem?_eq_none (by simp)

/-- C10: joining an empty source into a represented list changes nothing at
all: the state, the destination header (hence its head, tail, length, and via
the unchanged heap all of its nodes' links), and the source header are
returned exactly as given. -/
theorem C10_join_empty_source {σ : State} {l o : list} {ns : List Ptr}
    (hrep : lstRep σ l ns) (h1 : o.head = none) (h2 : o.tail = none)
    (h3 : o.len = 0) :
    listJoin σ l o = (σ, l, o) := by
  obtain ⟨_, _, _, _, _, _, htailnext⟩ := lstRep_invariants hrep
  rcases List.eq_nil_or_concat ns with hns | ⟨ns', tp, hns⟩
  · subst hns
    have hh : l.head = none := hrep.chain
    have ht : l.tail = none := hrep.tail_ok
    obtain ⟨lh, lt, ll, ld, lf, lm⟩ := l
    obtain ⟨oh, ot, ol, od, ofr, om⟩ := o
    simp only at h1 h2 h3 hh ht
    subst h1 h2 h3 hh ht
    simp [listJoin]
  · rw [List.concat_eq_append] at hns
    subst hns
    have ht : l.tail = some tp := by rw [hrep.tail_ok, endp_concat]
    obtain ⟨tnd, htnd⟩ := seg_alloc hrep.chain tp (by simp)
    have hnx : tnd.next = none := by
      have := htailnext tp ht
      rw [getNode_eq htnd] at this
      exact this
    have hweq : writeNext σ.heap tp none = σ.heap := by
      funext p
      by_cases hp : p = tp
      · subst hp
        rw [writeNext_get_eq htnd, ← hnx, htnd]
      · exact writeNext_get_ne _ _ _ hp
    obtain ⟨lh, lt, ll, ld, lf, lm⟩ := l
    obtain ⟨oh, ot, ol, od, ofr, om⟩ := o
    simp only at h1 h2 h3 ht
    subst h1 h2 h3 ht
    simp [listJoin, hweq]

/-- C5: `listJoin` on two represented lists with disjoint node sets makes the
destination's forward chain the concatenation of the two old chains (the very
same nodes, no copies), sets its length to the sum, and resets the source to a
valid, empty, still-usable list: its head and tail are null, its length zero,
it is represented by the empty chain, and a subsequent `listAddNodeTail` on it
succeeds. -/
theorem C5_join {σ : State} {l o : list} {ns1 ns2 : List Ptr}
    (hrep1 : lstRep σ l ns1) (hrep2 : lstRep σ o ns2)
    (hdisj : List.Disjoint ns1 ns2) :
    ∃ σ' l' o', listJoin σ l o = (σ', l', o') ∧
      lstRep σ' l' (ns1 ++ ns2) ∧
      l'.len = l.len + o.len ∧
      o'.head = none ∧ o'.tail = none ∧ o'.len = 0 ∧
      lstRep σ' o' [] ∧
      (∀ p, (σ'.heap p).map listNode.value = (σ.heap p).map listNode.value) ∧
      (∀ v, ∃ σ2 o2, listAddNodeTail σ' o' v true = some (σ2, o2) ∧
        lstRep σ2 o2 [σ'.ctr]) := by
  obtain ⟨σ', l', o', heq, hrepj, hlen, hoeq, hoempty, _, _, hmap, _⟩ :=
    join_rep hrep1 hrep2 hdisj
  have hoe : lstRep σ' o' [] := hoeq ▸ hoempty
  refine ⟨σ', l', o', heq, hrepj, hlen, by rw [hoeq], by rw [hoeq], by rw [hoeq],
    hoe, hmap, ?_⟩
  intro v
  obtain ⟨σ2, o2, heq2, hrep2', _⟩ := addTail_rep (v := v) hoe
  exact ⟨σ2, o2, heq2, by simpa using hrep2'⟩

/-- C6: `listGetIterator` seats the cursor at the head for the forward
direction and at the tail for the backward one; each `listNext` returns the
node at the cursor (or `none` when exhausted) and advances along the links as
they are at the moment of the call; consequently a forward seating yields
exactly the list's nodes from head to tail, one per call, then `none`, and
deleting precisely the just-returned node between calls leaves the rest of
the iteration undisturbed. -/
theorem C6_iterator {σ : State} {l : list} {ns : List Ptr}
    (hrep : lstRep σ l ns) :
    listGetIterator l AL_START_HEAD true = some ⟨l.head, AL_START_HEAD⟩ ∧
    listGetIterator l AL_START_TAIL true = some ⟨l.tail, AL_START_TAIL⟩ ∧
    (∀ it : listIter, it.next = none → listNext σ.heap it = (it, none)) ∧
    (∀ (it : listIter) (p : Ptr) (nd : listNode), it.next = some p →
      σ.heap p = some nd →
      listNext σ.heap it =
        ({ it with next := if it.direction = AL_START_HEAD then nd.next
                           else nd.prev }, some p)) ∧
    (∀ k, l.len ≤ k → runIter σ.heap ⟨l.head, AL_START_HEAD⟩ k = ns) ∧
    (∀ pre p post, ns = pre ++ p :: post →
      ∀ σ' l', listDelNode σ l p = (σ', l') →
        ∀ k, post.length ≤ k →
          runIter σ'.heap ⟨(getNode σ.heap p).next, AL_START_HEAD⟩ k = post) := by
  refine ⟨by simp [listGetIterator, AL_START_HEAD],
    by simp [listGetIterator, AL_START_TAIL, AL_START_HEAD], ?_, ?_, ?_, ?_⟩
  · intro it hit
    unfold listNext
    rw [hit]
  · intro it p nd hit hnd
    simp [listNext, hit, getNode_eq hnd]
  · intro k hk
    exact seg_runIter hrep.chain k (hrep.len_ok ▸ hk)
  · intro pre p post hns σ' l' heq k hk
    subst hns
    obtain ⟨mid0, _, hmidrest⟩ := seg_append.mp hrep.chain
    obtain ⟨hmid0, nd, hnd, _, hpost0⟩ := hmidrest
    obtain ⟨σ2, l2, heq2, hrep2, _⟩ := delNode_rep hrep
    have h2 : (σ2, l2) = (σ', l') := heq2.symm.trans heq
    rw [Prod.mk.injEq] at h2
    obtain ⟨rfl, rfl⟩ := h2
    have hcursor : (getNode σ.heap p).next = nd.next := by rw [getNode_eq hnd]
    rw [hcursor]
    obtain ⟨mid1, _, hpost1⟩ := seg_append.mp hrep2.chain
    cases post with
    | nil =>
      have hnone : nd.next = none := hpost0
      rw [hnone]
      cases k <;> simp [runIter, listNext]
    | cons q rest =>
      have hq0 : nd.next = some q := hpost0.1
      have hq1 : mid1 = some q := hpost1.1
      rw [hq0]
      rw [hq1] at hpost1
      exact seg_runIter hpost1 k hk

/-- C3 counterexample: `listGetIterator` — one of the operations the claim
says never fail — returns `NULL` (`none`) when the iterator allocation fails,
already on the empty list seated forward. -/
theorem C3_cex_getIterator_fails :
    listGetIterator
      { head := none, tail := none, len := 0,
        dup := none, free := false, matchfn := none } AL_START_HEAD false
      = none := rfl

/-- C3 (amended): `listDelNode`, `listRotate`, `listJoin`, `listIndex`,
`listRewind`, `listRewindTail`, `listNext` and `listReleaseIterator` never
fail — in the embedding they are total functions with no failure outcome —
and `listSearchKey`, the only fuelled one, returns a defined answer on every
represented list once the fuel exceeds the length; `listGetIterator`,
however, must allocate the iterator and fails exactly when that allocation
fails. -/
theorem C3_failure_profile {σ : State} {l : list} {ns : List Ptr} (key : Val)
    (fuel : Nat) (hrep : lstRep σ l ns) (hfuel : l.len < fuel) :
    (∀ (l2 : list) (d : Nat) (ok : Bool),
      listGetIterator l2 d ok = none ↔ ok = false) ∧
    (∃ r, listSearchKey σ l key fuel = some r) := by
  constructor
  · intro l2 d ok
    cases ok <;> simp [listGetIterator]
  · have hfuel' : ns.length < fuel := hrep.len_ok ▸ hfuel
    exact @searchLoop_total _ _ l key _ _ _ hrep.chain hfuel'

/-- Witness for C3's amended theorem, on a concrete empty list. -/
theorem C3_failure_profile_witness :
    lstRep { heap := fun _ => none, ctr := 0, freed := [] }
      { head := none, tail := none, len := 0,
        dup := none, free := false, matchfn := none } [] ∧
    ((∀ (l2 : list) (d : Nat) (ok : Bool),
        listGetIterator l2 d ok = none ↔ ok = false) ∧
      (∃ r, listSearchKey { heap := fun _ => none, ctr := 0, freed := [] }
        { head := none, tail := none, len := 0,
          dup := none, free := false, matchfn := none } 5 1 = some r)) :=
  have hrep : lstRep { heap := fun _ => none, ctr := 0, freed := [] }
      { head := none, tail := none, len := 0,
        dup := none, free := false, matchfn := none } [] :=
    ⟨rfl, rfl, rfl, List.nodup_nil, by simp⟩
  ⟨hrep, C3_failure_profile 5 1 hrep (by simp)⟩

/-- C7: `listDup` with a failing header allocation returns `NULL` untouched;
with a successful one it either succeeds — returning a copy with the same
three callbacks, the same length, freshly allocated nodes disjoint from the
source's, and, in source order, the values produced by the duplicate callback
when installed and the shared raw values otherwise, with the release trace
untouched — or fails — returning `NULL` after tearing the partial copy down:
every node of the partial copy is freed, no other heap cell changes, and the
release callback has been invoked on exactly the values already placed into
the copy, which are the processed values of a source-order prefix — and
`dupSucceeds` decides which; in every case the source list's nodes are
untouched. -/
theorem C7_dup {σ : State} {orig : list} {ns : List Ptr}
    (oks : List Bool) {fuel : Nat} (hrep : lstRep σ orig ns)
    (hfuel : ns.length < fuel) :
    listDup σ orig false oks fuel = some (σ, none) ∧
    (∃ σ' r, listDup σ orig true oks fuel = some (σ', r) ∧
      (∀ p ∈ ns, σ'.heap p = σ.heap p) ∧
      ((dupSucceeds orig.dup oks (valsOf σ.heap ns) = true ∧
        ∃ copy' cs' ws, r = some copy' ∧
          procVals orig.dup (valsOf σ.heap ns) = some ws ∧
          lstRep σ' copy' cs' ∧ copy'.len = orig.len ∧
          (∀ p ∈ cs', σ.ctr ≤ p) ∧ List.Disjoint cs' ns ∧
          valsOf σ'.heap cs' = ws ∧ σ'.freed = σ.freed ∧
          copy'.dup = orig.dup ∧ copy'.free = orig.free ∧
          copy'.matchfn = orig.matchfn) ∨
       (dupSucceeds orig.dup oks (valsOf σ.heap ns) = false ∧ r = none ∧
        σ'.freed = σ.freed ++
          (if orig.free then placedVals orig.dup oks (valsOf σ.heap ns)
           else []) ∧
        (∃ k, procVals orig.dup (valsOf σ.heap (ns.take k)) =
          some (placedVals orig.dup oks (valsOf σ.heap ns))) ∧
        ∃ cs2 : List Ptr, (∀ p ∈ cs2, σ.ctr ≤ p) ∧
          (∀ p ∈ cs2, σ'.heap p = none) ∧
          (∀ p, p ∉ cs2 → σ'.heap p = σ.heap p)))) := by
  refine ⟨rfl, ?_⟩
  have hrepc : lstRep σ
      { head := none, tail := none, len := 0, dup := orig.dup, free := orig.free, matchfn := orig.matchfn } [] :=
    ⟨rfl, rfl, rfl, List.nodup_nil, by simp⟩
  obtain ⟨σ', r, hloop, hlow, hbranch⟩ :=
    @dupLoop_spec _ _ _ _ oks _ _ _ _ hrep.chain hrepc hrep.bounded (by simp)
      (le_refl σ.ctr) hfuel
  have hrun : listDup σ orig true oks fuel = some (σ', r) := by
    rw [show listDup σ orig true oks fuel =
      dupLoop σ { head := none, tail := none, len := 0, dup := orig.dup, free := orig.free, matchfn := orig.matchfn }
        ⟨orig.head, AL_START_HEAD⟩ oks fuel from rfl]
    exact hloop
  refine ⟨σ', r, hrun, fun p hp => hlow p (hrep.bounded p hp), ?_⟩
  rcases hbranch with ⟨hsucc, copy', cs', ws, hr, hpv, hrep', hhi', hvals',
    hfreed', hd', hf', hm'⟩ |
    ⟨hfail, hrnone, hfreedIH, cs2, hcs2hi, hcs2none, hcs2frame⟩
  · refine Or.inl ⟨hsucc, copy', cs', ws, hr, hpv, by simpa using hrep', ?_,
      ?_, ?_, ?_, hfreed', hd', hf', hm'⟩
    · have h1 : copy'.len = cs'.length := by
        have := hrep'.len_ok
        simpa using this
      have h2 : valsOf σ'.heap cs' = ws := by simpa [valsOf] using hvals'
      have h3 : cs'.length = ws.length := by
        rw [← h2]
        unfold valsOf
        simp
      have h4 : ws.length = ns.length := by
        rw [procVals_length hpv]
        unfold valsOf
        simp
      rw [h1, h3, h4, hrep.len_ok]
    · intro p hp
      exact hhi' p (by simpa using hp)
    · intro a ha hb
      exact absurd (hrep.bounded a hb)
        (Nat.not_lt.mpr (hhi' a (by simpa using ha)))
    · simpa [valsOf] using hvals'
  · refine Or.inr ⟨hfail, hrnone, ?_, ?_, cs2, ?_, ?_, ?_⟩
    · rw [hfreedIH]
      cases ho : orig.free <;> simp [ho, valsOf]
    · obtain ⟨k, hk⟩ := placedVals_procVals oks (valsOf σ.heap ns)
      refine ⟨k, ?_⟩
      rw [valsOf_take]
      exact hk
    · intro p hp
      exact hcs2hi p hp
    · intro p hp
      exact hcs2none p (by simpa using hp)
    · intro p hp
      exact hcs2frame p (by simpa using hp)

theorem lst2_rep : lstRep st2 lst2 [0, 1] :=
  ⟨⟨rfl, ⟨10, none, some 1⟩, rfl, rfl, rfl, ⟨11, some 0, none⟩, rfl, rfl, rfl⟩,
   rfl, rfl, by decide, by decide⟩

theorem lstA_rep : lstRep stJ lstA [0] :=
  ⟨⟨rfl, ⟨10, none, none⟩, rfl, rfl, rfl⟩, rfl, rfl, by decide, by decide⟩

theorem lstB_rep : lstRep stJ lstB [1] :=
  ⟨⟨rfl, ⟨11, none, none⟩, rfl, rfl, rfl⟩, rfl, rfl, by decide, by decide⟩

theorem lst0_rep : lstRep st0 lst0 [] :=
  ⟨rfl, rfl, rfl, List.nodup_nil, by simp⟩

/-- Witness for C2 on a concrete fresh empty list. -/
theorem C2_insertion_ops_witness :
    lstRep st0 lst0 [] ∧
    ((∃ σ' l', listAddNodeHead st0 lst0 5 true = some (σ', l') ∧
      lstRep σ' l' (st0.ctr :: []) ∧ l'.head = some st0.ctr ∧
      (getNode σ'.heap st0.ctr).value = 5 ∧ l'.len = lst0.len + 1 ∧
      (lst0.len = 0 → l'.tail = some st0.ctr) ∧
      (∀ p ∈ ([] : List Ptr),
        (getNode σ'.heap p).value = (getNode st0.heap p).value)) ∧
    (∃ σ' l', listAddNodeTail st0 lst0 5 true = some (σ', l') ∧
      lstRep σ' l' ([] ++ [st0.ctr]) ∧ l'.tail = some st0.ctr ∧
      (getNode σ'.heap st0.ctr).value = 5 ∧ l'.len = lst0.len + 1 ∧
      (∀ p ∈ ([] : List Ptr),
        (getNode σ'.heap p).value = (getNode st0.heap p).value)) ∧
    (∀ pre post anchor, ([] : List Ptr) = pre ++ anchor :: post →
      (∃ σ' l', listInsertNode st0 lst0 anchor 5 true true = some (σ', l') ∧
        lstRep σ' l' (pre ++ anchor :: st0.ctr :: post) ∧
        (getNode σ'.heap st0.ctr).value = 5 ∧ l'.len = lst0.len + 1 ∧
        (post = [] → l'.tail = some st0.ctr)) ∧
      (∃ σ' l', listInsertNode st0 lst0 anchor 5 false true = some (σ', l') ∧
        lstRep σ' l' (pre ++ st0.ctr :: anchor :: post) ∧
        (getNode σ'.heap st0.ctr).value = 5 ∧ l'.len = lst0.len + 1 ∧
        (pre = [] → l'.head = some st0.ctr))) ∧
    listAddNodeHead st0 lst0 5 false = none ∧
    listAddNodeTail st0 lst0 5 false = none ∧
    (∀ anchor after, listInsertNode st0 lst0 anchor 5 after false = none)) :=
  ⟨lst0_rep, C2_insertion_ops 5 lst0_rep⟩

/-- Witness for C4 on the concrete two-node list, deleting the tail node. -/
theorem C4_delete_witness :
    lstRep st2 lst2 ([0] ++ 1 :: []) ∧
    (∃ σ' l', listDelNode st2 lst2 1 = (σ', l') ∧
      lstRep σ' l' ([0] ++ []) ∧
      l'.len = lst2.len - 1 ∧
      σ'.freed = (if lst2.free then st2.freed ++ [(getNode st2.heap 1).value]
                  else st2.freed) ∧
      σ'.heap 1 = none ∧
      (∀ p ∈ [0] ++ ([] : List Ptr),
        (getNode σ'.heap p).value = (getNode st2.heap p).value) ∧
      l'.free = lst2.free) :=
  ⟨lst2_rep, @C4_delete st2 lst2 [0] [] 1 lst2_rep⟩

/-- Witness for C5 on two concrete disjoint singleton lists. -/
theorem C5_join_witness :
    (lstRep stJ lstA [0] ∧ lstRep stJ lstB [1] ∧
      List.Disjoint ([0] : List Ptr) [1]) ∧
    (∃ σ' l' o', listJoin stJ lstA lstB = (σ', l', o') ∧
      lstRep σ' l' ([0] ++ [1]) ∧
      l'.len = lstA.len + lstB.len ∧
      o'.head = none ∧ o'.tail = none ∧ o'.len = 0 ∧
      lstRep σ' o' [] ∧
      (∀ p, (σ'.heap p).map listNode.value = (stJ.heap p).map listNode.value) ∧
      (∀ v, ∃ σ2 o2, listAddNodeTail σ' o' v true = some (σ2, o2) ∧
        lstRep σ2 o2 [σ'.ctr])) :=
  have hd : List.Disjoint ([0] : List Ptr) [1] := by
    simp [List.Disjoint]
  ⟨⟨lstA_rep, lstB_rep, hd⟩, C5_join lstA_rep lstB_rep hd⟩

/-- Witness for C6 on the concrete two-node list. -/
theorem C6_iterator_witness :
    lstRep st2 lst2 [0, 1] ∧
    (listGetIterator lst2 AL_START_HEAD true = some ⟨lst2.head, AL_START_HEAD⟩ ∧
    listGetIterator lst2 AL_START_TAIL true = some ⟨lst2.tail, AL_START_TAIL⟩ ∧
    (∀ it : listIter, it.next = none → listNext st2.heap it = (it, none)) ∧
    (∀ (it : listIter) (p : Ptr) (nd : listNode), it.next = some p →
      st2.heap p = some nd →
      listNext st2.heap it =
        ({ it with next := if it.direction = AL_START_HEAD then nd.next
                           else nd.prev }, some p)) ∧
    (∀ k, lst2.len ≤ k → runIter st2.heap ⟨lst2.head, AL_START_HEAD⟩ k = [0, 1]) ∧
    (∀ pre p post, ([0, 1] : List Ptr) = pre ++ p :: post →
      ∀ σ' l', listDelNode st2 lst2 p = (σ', l') →
        ∀ k, post.length ≤ k →
          runIter σ'.heap ⟨(getNode st2.heap p).next, AL_START_HEAD⟩ k = post)) :=
  ⟨lst2_rep, C6_iterator lst2_rep⟩

/-- Witness for C7 on the concrete two-node list (no duplicate callback, so
both values are shared; all allocations succeed by default). -/
theorem C7_dup_witness :
    (lstRep st2 lst2 [0, 1] ∧ ([0, 1] : List Ptr).length < 3) ∧
    (listDup st2 lst2 false [] 3 = some (st2, none) ∧
    (∃ σ' r, listDup st2 lst2 true [] 3 = some (σ', r) ∧
      (∀ p ∈ ([0, 1] : List Ptr), σ'.heap p = st2.heap p) ∧
      ((dupSucceeds lst2.dup [] (valsOf st2.heap [0, 1]) = true ∧
        ∃ copy' cs' ws, r = some copy' ∧
          procVals lst2.dup (valsOf st2.heap [0, 1]) = some ws ∧
          lstRep σ' copy' cs' ∧ copy'.len = lst2.len ∧
          (∀ p ∈ cs', st2.ctr ≤ p) ∧ List.Disjoint cs' [0, 1] ∧
          valsOf σ'.heap cs' = ws ∧ σ'.freed = st2.freed ∧
          copy'.dup = lst2.dup ∧ copy'.free = lst2.free ∧
          copy'.matchfn = lst2.matchfn) ∨
       (dupSucceeds lst2.dup [] (valsOf st2.heap [0, 1]) = false ∧ r = none ∧
        σ'.freed = st2.freed ++
          (if lst2.free then placedVals lst2.dup [] (valsOf st2.heap [0, 1])
           else []) ∧
        (∃ k, procVals lst2.dup (valsOf st2.heap (([0, 1] : List Ptr).take k)) =
          some (placedVals lst2.dup [] (valsOf st2.heap [0, 1]))) ∧
        ∃ cs2 : List Ptr, (∀ p ∈ cs2, st2.ctr ≤ p) ∧
          (∀ p ∈ cs2, σ'.heap p = none) ∧
          (∀ p, p ∉ cs2 → σ'.heap p = st2.heap p))))) :=
  ⟨⟨lst2_rep, by decide⟩, C7_dup [] lst2_rep (by decide)⟩

/-- Witness for C8 on the concrete two-node list. -/
theorem C8_rotate_witness :
    lstRep st2 lst2 (0 :: [] ++ [1]) ∧
    ((∀ (σ2 : State) (l2 : list), l2.len ≤ 1 → listRotate σ2 l2 = (σ2, l2)) ∧
    ∃ σ' l', listRotate st2 lst2 = (σ', l') ∧
      lstRep σ' l' (1 :: 0 :: []) ∧ l'.head = some 1 ∧ l'.len = lst2.len ∧
      σ'.ctr = st2.ctr ∧ σ'.freed = st2.freed ∧
      (∀ p, (σ'.heap p).map listNode.value = (st2.heap p).map listNode.value)) :=
  ⟨lst2_rep, @C8_rotate st2 lst2 [] 0 1 lst2_rep⟩

/-- Witness for C9 on the concrete two-node list. -/
theorem C9_index_witness :
    lstRep st2 lst2 [0, 1] ∧
    (listIndex st2 lst2 0 = lst2.head ∧
    listIndex st2 lst2 (-1) = lst2.tail ∧
    (∀ i : Nat, listIndex st2 lst2 (i : Int) = ([0, 1] : List Ptr)[i]?) ∧
    (∀ i : Nat, listIndex st2 lst2 (-(i : Int) - 1) =
      ([0, 1] : List Ptr).reverse[i]?) ∧
    listIndex st2 lst2 (lst2.len : Int) = none ∧
    listIndex st2 lst2 (-(lst2.len : Int) - 1) = none) :=
  ⟨lst2_rep, C9_index lst2_rep⟩

/-- Witness for C10: joining a concrete empty source into the concrete
two-node list changes nothing. -/
theorem C10_join_empty_source_witness :
    (lstRep st2 lst2 [0, 1] ∧ lst0.head = none ∧ lst0.tail = none ∧
      lst0.len = 0) ∧
    listJoin st2 lst2 lst0 = (st2, lst2, lst0) :=
  ⟨⟨lst2_rep, rfl, rfl, rfl⟩, C10_join_empty_source lst2_rep rfl rfl rfl⟩

end Adlist
